import Mathlib

open scoped List

set_option maxRecDepth 100000

/-!
Verification development for the ObsidianNotes cleaning scripts
(`clean_db_final.py`, `process_db_qa.py`, `process_db_qa_improved.py`,
`reorder_questions.py`, `simple_clean.py`).

Text is modelled as `List Char`.  Python string lines are the fields of
`str.split('\n')`.  The regular expressions from the source are embedded
as abstract syntax trees (`RE`) and executed by a fuel-bounded
backtracking matcher `mtch` that mirrors CPython `re` semantics for the
constructs the scripts use: literals, `.`, character classes, `\s`, `\d`,
greedy and lazy repetition, alternation, capture groups, lookahead
`(?=..)`, `$`, `\Z`, and the `IGNORECASE`/`DOTALL` flags.  (`^` appears in
the sources only in patterns used with `re.match`, which is anchored
anyway, so it is dropped from the ASTs.)  The model uses ASCII notions of
whitespace, digits and lower-casing; the scripts' inputs are ASCII apart
from one mojibake arrow sequence, which is carried verbatim.
-/

/-- Characters matched by `\s` and by `str.strip()` (ASCII fragment). -/
def pySpace (c : Char) : Bool :=
  c == ' ' || c == '\t' || c == '\n' || c == '\x0b' || c == '\x0c' || c == '\r'

/-- Shorthand turning a string literal into the `List Char` model. -/
def str (x : String) : List Char := x.data

/-- Boolean prefix test on character lists (Python `str.startswith`). -/
def pfxL : List Char → List Char → Bool
  | [], _ => true
  | _ :: _, [] => false
  | p :: ps, c :: cs => p == c && pfxL ps cs

/-- Drop trailing `pySpace` characters. -/
def dropTrailWS : List Char → List Char
  | [] => []
  | c :: cs =>
    match dropTrailWS cs with
    | [] => if pySpace c then [] else [c]
    | d :: ds => c :: d :: ds

/-- Python `str.strip()` (whitespace on both ends). -/
def pyStrip (l : List Char) : List Char :=
  dropTrailWS (l.dropWhile pySpace)

/-- Worker for `collapseWS`; the flag records whether the previous kept
character came from a whitespace run. -/
def cwAux : Bool → List Char → List Char
  | _, [] => []
  | prev, c :: cs =>
    if pySpace c then
      if prev then cwAux true cs else ' ' :: cwAux true cs
    else c :: cwAux false cs

/-- Translation of `re.sub(r'\s+', ' ', t)`: each maximal whitespace run
becomes a single space. -/
def collapseWS (t : List Char) : List Char := cwAux false t

/-- Worker for `collapseSpaceRuns`. -/
def csAux : Bool → List Char → List Char
  | _, [] => []
  | prev, c :: cs =>
    if c == ' ' then
      if prev then csAux true cs else ' ' :: csAux true cs
    else c :: csAux false cs

/-- Translation of `re.sub(r'  +', ' ', t)`: runs of two or more spaces
become one space, so every space run ends up with length one. -/
def collapseSpaceRuns (t : List Char) : List Char := csAux false t

/-- Worker for `collapsePeriodRuns`. -/
def cpAux : Bool → List Char → List Char
  | _, [] => []
  | prev, c :: cs =>
    if c == '.' then
      if prev then cpAux true cs else '.' :: cpAux true cs
    else c :: cpAux false cs

/-- Translation of `re.sub(r'\.+', '.', t)`: each period run becomes a
single period. -/
def collapsePeriodRuns (t : List Char) : List Char := cpAux false t

/-- Translation of `re.match(r'\d+\.\s*Q:', line)` viewed as a Boolean:
one or more digits, a period, optional whitespace, then `Q:`.  (The
pattern is deterministic: digits, `.`, whitespace and `Q` are mutually
exclusive, so greedy matching never backtracks.) -/
def isQLine (l : List Char) : Bool :=
  !(l.takeWhile Char.isDigit).isEmpty &&
    match l.dropWhile Char.isDigit with
    | '.' :: rest => pfxL (str "Q:") (rest.dropWhile pySpace)
    | _ => false

/-- Decimal digit-string rendering used by f-strings, with fuel. -/
def natStrGo : Nat → Nat → List Char → List Char
  | 0, _, acc => acc
  | fuel + 1, n, acc =>
    let d := Char.ofNat (48 + n % 10)
    if n < 10 then d :: acc else natStrGo fuel (n / 10) (d :: acc)

/-- Decimal rendering of a natural number (Python `f"{n}"`). -/
def natStr (n : Nat) : List Char := natStrGo (n + 1) n []

/-- Value of a digit string (Python `int`, on `\d+` captures). -/
def digitsVal (l : List Char) : Nat :=
  l.foldl (fun a c => a * 10 + (c.toNat - 48)) 0

/-- Items of a regex character class. -/
inductive CItem where
  | one (c : Char)
  | rng (lo hi : Char)
  | wsp
  | dig
deriving DecidableEq

/-- Matcher flags: `re.IGNORECASE` and `re.DOTALL`. -/
structure RFlags where
  ic : Bool
  dotall : Bool
deriving DecidableEq

/-- Regex abstract syntax.  `rep greedy r` is `r*` (greedy) or `r*?`
(lazy); `grp n r` is capture group `n`; `look r` is lookahead `(?=r)`;
`eol` is `$` (end of string or just before a final newline); `eoz` is
`\Z`. -/
inductive RE where
  | eps
  | lit (c : Char)
  | dot
  | cls (neg : Bool) (items : List CItem)
  | seq (a b : RE)
  | alt (a b : RE)
  | rep (greedy : Bool) (r : RE)
  | grp (n : Nat) (r : RE)
  | look (r : RE)
  | eol
  | eoz
deriving DecidableEq

/-- Literal comparison, case-folded under `IGNORECASE` (ASCII). -/
def charEqRE (fl : RFlags) (p c : Char) : Bool :=
  if fl.ic then p.toLower == c.toLower else p == c

/-- Does one class item accept a character? -/
def citemMatch (fl : RFlags) (it : CItem) (c : Char) : Bool :=
  match it with
  | .one d => charEqRE fl d c
  | .rng lo hi => decide (lo ≤ c) && decide (c ≤ hi)
  | .wsp => pySpace c
  | .dig => c.isDigit

/-- Does a (possibly negated) class accept a character? -/
def clsMatch (fl : RFlags) (neg : Bool) (its : List CItem) (c : Char) : Bool :=
  neg != its.any (fun it => citemMatch fl it c)

/-- Capture list: entries `(group, start, stop)`, most recent first. -/
abbrev Caps := List (Nat × Nat × Nat)

/-- Backtracking CPS matcher.  `sfx` is the unread suffix, `pos` its
absolute offset; the continuation receives the state after this node.
Preference order follows CPython: greedy repetition tries longer first,
lazy tries shorter first, alternation tries the left branch first, and a
repetition iteration that consumes nothing is cut off.  Lookahead is
atomic and keeps the captures of its first success.  The fuel only
bounds recursion depth; callers pass enough for the inputs they use. -/
def mtch (fl : RFlags) : Nat → RE → List Char → Nat → Caps →
    (List Char → Nat → Caps → Option (Nat × Caps)) → Option (Nat × Caps)
  | 0, _, _, _, _, _ => none
  | fuel + 1, re, sfx, pos, caps, k =>
    match re with
    | .eps => k sfx pos caps
    | .lit p =>
      match sfx with
      | [] => none
      | c :: rest => if charEqRE fl p c then k rest (pos + 1) caps else none
    | .dot =>
      match sfx with
      | [] => none
      | c :: rest => if fl.dotall || !(c == '\n') then k rest (pos + 1) caps else none
    | .cls neg its =>
      match sfx with
      | [] => none
      | c :: rest => if clsMatch fl neg its c then k rest (pos + 1) caps else none
    | .seq a b =>
      mtch fl fuel a sfx pos caps (fun s2 p2 c2 => mtch fl fuel b s2 p2 c2 k)
    | .alt a b =>
      match mtch fl fuel a sfx pos caps k with
      | some r => some r
      | none => mtch fl fuel b sfx pos caps k
    | .rep greedy r =>
      if greedy then
        match mtch fl fuel r sfx pos caps
            (fun s2 p2 c2 =>
              if p2 == pos then none else mtch fl fuel (.rep true r) s2 p2 c2 k) with
        | some res => some res
        | none => k sfx pos caps
      else
        match k sfx pos caps with
        | some res => some res
        | none =>
          mtch fl fuel r sfx pos caps
            (fun s2 p2 c2 =>
              if p2 == pos then none else mtch fl fuel (.rep false r) s2 p2 c2 k)
    | .grp n r =>
      mtch fl fuel r sfx pos caps (fun s2 p2 c2 => k s2 p2 ((n, pos, p2) :: c2))
    | .look r =>
      match mtch fl fuel r sfx pos caps (fun _ _ c2 => some (pos, c2)) with
      | some (_, c2) => k sfx pos c2
      | none => none
    | .eol => if sfx == [] || sfx == ['\n'] then k sfx pos caps else none
    | .eoz => if sfx == [] then k sfx pos caps else none

/-- Size of a regex (for fuel computation). -/
def sizeRE : RE → Nat
  | .eps | .lit _ | .dot | .cls _ _ | .eol | .eoz => 1
  | .seq a b | .alt a b => sizeRE a + sizeRE b + 1
  | .rep _ r | .grp _ r | .look r => sizeRE r + 1

/-- Generous fuel: far above the maximal backtracking depth for the
patterns in this development on a suffix of length `n`. -/
def mfuel (re : RE) (n : Nat) : Nat :=
  (n + 2) * (n + 2) * (sizeRE re + 2) + 9

/-- Anchored match attempt at offset `pos` of the suffix `sfx`
(CPython `re.match` when `pos = 0`): returns end offset and captures. -/
def reMatchAt (fl : RFlags) (re : RE) (sfx : List Char) (pos : Nat) :
    Option (Nat × Caps) :=
  mtch fl (mfuel re sfx.length) re sfx pos [] (fun _ p2 c2 => some (p2, c2))

/-- Python `re.match`: anchored at the start of the string. -/
def reMatch (fl : RFlags) (re : RE) (s : List Char) : Option (Nat × Caps) :=
  reMatchAt fl re s 0

/-- Scan for the leftmost match at offset `pos` or later; returns
`(start, stop, captures)`. -/
def reFindGo (fl : RFlags) (re : RE) : Nat → List Char → Option (Nat × Nat × Caps)
  | pos, sfx =>
    match reMatchAt fl re sfx pos with
    | some (e, caps) => some (pos, e, caps)
    | none =>
      match sfx with
      | [] => none
      | _ :: rest => reFindGo fl re (pos + 1) rest

/-- Leftmost match of `re` in `s` starting at offset `start`. -/
def reFindFrom (fl : RFlags) (re : RE) (s : List Char) (start : Nat) :
    Option (Nat × Nat × Caps) :=
  reFindGo fl re start (s.drop start)

/-- Python `re.search`. -/
def reSearch (fl : RFlags) (re : RE) (s : List Char) : Option (Nat × Nat × Caps) :=
  reFindFrom fl re s 0

/-- Slice `s[a:b]`. -/
def sliceL (s : List Char) (a b : Nat) : List Char :=
  (s.drop a).take (b - a)

/-- Contents of capture group `n` (most recent capture wins, as in
CPython). -/
def capGet (caps : Caps) (n : Nat) (s : List Char) : Option (List Char) :=
  match caps.find? (fun t => t.1 == n) with
  | some (_, a, b) => some (sliceL s a b)
  | none => none

/-- Worker for `reSub`: repeatedly replace the leftmost match, resuming
after it; an empty-width match emits the replacement, copies one
character and advances (CPython ≥ 3.7 semantics). -/
def reSubGo (fl : RFlags) (re : RE) (repl : List Char) (s : List Char) :
    Nat → Nat → List Char
  | 0, pos => s.drop pos
  | fuel + 1, pos =>
    match reFindFrom fl re s pos with
    | none => s.drop pos
    | some (a, b, _) =>
      sliceL s pos a ++ repl ++
        (if a < b then reSubGo fl re repl s fuel b
         else
           match s.drop a with
           | [] => []
           | c :: _ => c :: reSubGo fl re repl s fuel (a + 1))

/-- Python `re.sub(pattern, repl, s)` with a plain replacement string. -/
def reSub (fl : RFlags) (re : RE) (repl : List Char) (s : List Char) : List Char :=
  reSubGo fl re repl s (s.length + 1) 0

/-- Worker for `reSplitCap`. -/
def reSplitGo (fl : RFlags) (re : RE) (s : List Char) : Nat → Nat → List (List Char)
  | 0, pos => [s.drop pos]
  | fuel + 1, pos =>
    match reFindFrom fl re s pos with
    | none => [s.drop pos]
    | some (a, b, _) =>
      if a < b then sliceL s pos a :: sliceL s a b :: reSplitGo fl re s fuel b
      else [s.drop pos]

/-- Python `re.split` with a pattern that is one capture group wrapping
the whole expression: the separators (equal to their group-1 capture)
are kept in the result.  The patterns used here cannot match the empty
string, so the zero-width case never fires. -/
def reSplitCap (fl : RFlags) (re : RE) (s : List Char) : List (List Char) :=
  reSplitGo fl re s (s.length + 1) 0

/-- Fold of `re.sub(p, '', content)` over a pattern list. -/
def subAll (fl : RFlags) (pats : List RE) (s : List Char) : List Char :=
  pats.foldl (fun acc p => reSub fl p [] acc) s

/-! ### Pattern abstract syntax for the scripts' regexes

Each definition carries the original pattern as a comment.  `rcat` is
concatenation of a list, `rlit` a literal string, `anyL` is `.*?`,
`anyG` is `.*`, `wsS` is `\s*`, `wsP` is `\s+`, `digP` is `\d+`,
`notDotS` is `[^.]*`, `notNl` is `[^\n]`. -/

def rcat (rs : List RE) : RE := rs.foldr RE.seq RE.eps

def rlit (x : String) : RE := rcat (x.data.map RE.lit)

def rws : RE := .cls false [.wsp]

def anyL : RE := .rep false .dot

def anyG : RE := .rep true .dot

def wsS : RE := .rep true rws

def plusG (r : RE) : RE := .seq r (.rep true r)

def wsP : RE := plusG rws

def digP : RE := plusG (.cls false [.dig])

def notDotS : RE := .rep true (.cls true [.one '.'])

def notNl : RE := .cls true [.one '\n']

/-- No flags. -/
def flN : RFlags := ⟨false, false⟩

/-- `re.IGNORECASE`. -/
def flI : RFlags := ⟨true, false⟩

/-- `re.DOTALL`. -/
def flS : RFlags := ⟨false, true⟩

/-- `re.DOTALL | re.IGNORECASE`. -/
def flIS : RFlags := ⟨true, true⟩

/-- The `major_fluff` list of `clean_db_final.py` (applied with
`re.DOTALL | re.IGNORECASE`). -/
def cdfFluffPats : List RE :=
  [ -- r'If you want, I can expand this into a "200\+ practical DevOps DB Q&A list".*?Do you want me to do that next\?'
   rcat [rlit "If you want, I can expand this into a \"200+ practical DevOps DB Q&A list\"",
         anyL, rlit "Do you want me to do that next?"],
   -- r'You said:\s*Proceed\s*ChatGPT said:\s*Perfect\..*?Here\'s a comprehensive.*?migrations\.'
   rcat [rlit "You said:", wsS, rlit "Proceed", wsS, rlit "ChatGPT said:", wsS,
         rlit "Perfect.", anyL, rlit "Here's a comprehensive", anyL, rlit "migrations."],
   -- r'Perfect\. Here\'s a comprehensive.*?migrations\.'
   rcat [rlit "Perfect. Here's a comprehensive", anyL, rlit "migrations."],
   -- the long literal pattern
   rlit "Here's a comprehensive, practical DevOps database Q&A list, continuing from what we've covered. I'll focus on RDBMS, NoSQL, cloud-managed DBs, operations, monitoring, security, scaling, and migrations.",
   -- r'Comprehensive Practical DevOps DB Q&A'
   rlit "Comprehensive Practical DevOps DB Q&A"]

/-- The `fluff_patterns` list of `process_db_qa.py`. -/
def pdqFluffPats : List RE :=
  [ -- r'If you want, I can expand this.*?Do you want me to do that next\?'
   rcat [rlit "If you want, I can expand this", anyL, rlit "Do you want me to do that next?"],
   -- r'You said:\s*Proceed\s*ChatGPT said:\s*Perfect\.'
   rcat [rlit "You said:", wsS, rlit "Proceed", wsS, rlit "ChatGPT said:", wsS, rlit "Perfect."],
   -- r'Perfect\. Here\'s a comprehensive.*?'
   rcat [rlit "Perfect. Here's a comprehensive", anyL],
   -- r'Do you want me to.*?'
   rcat [rlit "Do you want me to", anyL],
   -- r'I can expand.*?'
   rcat [rlit "I can expand", anyL],
   -- r'continuing from what we\'ve covered.*?'
   rcat [rlit "continuing from what we've covered", anyL],
   -- r'covering.*?cloud operations specifically\.'
   rcat [rlit "covering", anyL, rlit "cloud operations specifically."],
   -- r'Comprehensive Practical DevOps DB Q&A'
   rlit "Comprehensive Practical DevOps DB Q&A",
   -- r'Here\'s a comprehensive.*?migrations\.'
   rcat [rlit "Here's a comprehensive", anyL, rlit "migrations."]]

/-- The `fluff_patterns` list of `process_db_qa_improved.py`. -/
def impFluffPats : List RE :=
  [rcat [rlit "If you want, I can expand this", anyL, rlit "Do you want me to do that next?"],
   rcat [rlit "You said:", wsS, rlit "Proceed", wsS, rlit "ChatGPT said:", wsS, rlit "Perfect."],
   -- r'Perfect\. Here\'s a comprehensive.*?migrations\.'
   rcat [rlit "Perfect. Here's a comprehensive", anyL, rlit "migrations."],
   rcat [rlit "Do you want me to", anyL],
   -- r'I can expand.*?specifically\.'
   rcat [rlit "I can expand", anyL, rlit "specifically."],
   rcat [rlit "continuing from what we've covered", anyL],
   rcat [rlit "covering", anyL, rlit "cloud operations specifically."],
   rlit "Comprehensive Practical DevOps DB Q&A",
   -- r'Here\'s a comprehensive.*?'
   rcat [rlit "Here's a comprehensive", anyL]]

/-- The `fluff_patterns` list of `simple_clean.py`. -/
def scFluffPats : List RE :=
  [ -- r' I can keep going and expand this all the way to 100\+ questions[^.]*\.'
   rcat [rlit " I can keep going and expand this all the way to 100+ questions", notDotS, rlit "."],
   -- r' Do you want me to continue to #100\?[^.]*\.'
   rcat [rlit " Do you want me to continue to #100?", notDotS, rlit "."],
   -- r' You said:\s*Proceed\s*ChatGPT said:\s*Perfect\.[^.]*\.'
   rcat [rlit " You said:", wsS, rlit "Proceed", wsS, rlit "ChatGPT said:", wsS,
         rlit "Perfect.", notDotS, rlit "."],
   -- r' If you want, I can continue[^.]*\.'
   rcat [rlit " If you want, I can continue", notDotS, rlit "."],
   rlit " Do you want me to proceed with that?",
   rlit " Do you want me to continue with that?",
   rlit " Do you want me to make that next?",
   -- r' I can also create[^.]*\.'
   rcat [rlit " I can also create", notDotS, rlit "."],
   -- r' This brings us to \d+[^.]*\.'
   rcat [rlit " This brings us to ", digP, notDotS, rlit "."],
   -- r' We\'ve now covered[^.]*\.'
   rcat [rlit " We've now covered", notDotS, rlit "."],
   -- r' At this point[^.]*\.'
   rcat [rlit " At this point", notDotS, rlit "."],
   rlit " to #100? Perfect. Let's continue expanding your practical CI/CD interview Q&A from #66 onward, keeping it highly realistic, scenario-driven, and DevOps-focused.",
   -- r' Perfect\. Let\'s continue[^.]*DevOps-focused\.'
   rcat [rlit " Perfect. Let's continue", notDotS, rlit "DevOps-focused."],
   -- r' continuing from #\d+ onward[^.]*\.'
   rcat [rlit " continuing from #", digP, rlit " onward", notDotS, rlit "."],
   -- r' from #\d+ all the way to[^.]*\.'
   rcat [rlit " from #", digP, rlit " all the way to", notDotS, rlit "."],
   -- r' going into extreme[^.]*\.'
   rcat [rlit " going into extreme", notDotS, rlit "."],
   -- r' covering[^.]*interview[^.]*\.'
   rcat [rlit " covering", notDotS, rlit "interview", notDotS, rlit "."],
   -- r' giving you a[^.]*Q&A[^.]*\.'
   rcat [rlit " giving you a", notDotS, rlit "Q&A", notDotS, rlit "."],
   -- r' create a[^.]*master-level[^.]*\.'
   rcat [rlit " create a", notDotS, rlit "master-level", notDotS, rlit "."],
   -- r' DevOps interview[^.]*\.'
   rcat [rlit " DevOps interview", notDotS, rlit "."],
   rlit " me to continue.",
   rlit " me to proceed."]

/-- Topic pattern of `clean_db_final.py`:
`^(\d+)\.\s+([A-Z][a-zA-Z\s&/]+)$` (used with `re.match`, no flags). -/
def cdfTopicRE : RE :=
  rcat [.grp 1 digP, .lit '.', wsP,
        .grp 2 (rcat [.cls false [.rng 'A' 'Z'],
                      plusG (.cls false [.rng 'a' 'z', .rng 'A' 'Z', .wsp,
                                         .one '&', .one '/'])]),
        .eol]

/-- Topic pattern of `process_db_qa.py`: `^(\d+)\.\s+(.+)$`. -/
def pdqTopicRE : RE :=
  rcat [.grp 1 digP, .lit '.', wsP, .grp 2 (plusG .dot), .eol]

/-- Topic pattern of `process_db_qa_improved.py`:
`^(\d+)\.\s+[A-Z][a-zA-Z\s&]+$`. -/
def impTopicRE : RE :=
  rcat [.grp 1 digP, .lit '.', wsP,
        .cls false [.rng 'A' 'Z'],
        plusG (.cls false [.rng 'a' 'z', .rng 'A' 'Z', .wsp, .one '&']),
        .eol]

/-- The `skip_patterns` of `process_db_qa.py` (used with `re.match` and
`re.IGNORECASE`). -/
def pdqSkipPats : List RE :=
  [rlit "Perfect.",
   rlit "You said:",
   rlit "ChatGPT said:",
   rlit "If you want",
   rlit "Do you want",
   rlit "Here's a",
   -- r'^\d+\+.*practical'
   rcat [digP, .lit '+', anyG, rlit "practical"],
   -- r'^covering.*specifically'
   rcat [rlit "covering", anyG, rlit "specifically"]]

/-- The `skip_patterns` of `process_db_qa_improved.py` (the two extra
entries at the end; the check has no observable effect there because
non-matching lines are discarded anyway). -/
def impSkipPats : List RE :=
  pdqSkipPats ++ [rlit "I can expand", rlit "continuing from"]

/-- Arrow-glyph answer pattern of `process_db_qa.py`:
`â†’.*?(?=\s|$)` (no flags; the three characters are the mojibake
sequence U+00E2, U+2020, U+2019 present in the source). -/
def arrowRE : RE :=
  rcat [.lit '\u00E2', .lit '\u2020', .lit '\u2019', anyL, .look (.alt rws .eol)]

/-- Split pattern of `reorder_questions.py`: `(\d+\.\s*Q:)`. -/
def reorderMarkRE : RE :=
  .grp 1 (rcat [digP, .lit '.', wsS, rlit "Q:"])

/-- Head pattern of `reorder_questions.py`: `(\d+)\.\s*Q:\s*([^\n]+)`. -/
def reorderHeadRE : RE :=
  rcat [.grp 1 digP, .lit '.', wsS, rlit "Q:", wsS, .grp 2 (plusG notNl)]

/-- Answer pattern of `reorder_questions.py`:
`A:\s*([^\n].*?)(?=\n\d+\.\s*Q:|\Z)` (used with `re.DOTALL`). -/
def reorderAnsRE : RE :=
  rcat [rlit "A:", wsS, .grp 1 (rcat [notNl, anyL]),
        .look (.alt (rcat [.lit '\n', digP, .lit '.', wsS, rlit "Q:"]) .eoz)]

/-! ### Lines, documents and output entries -/

/-- Python `str.split('\n')` (always returns at least one field). -/
def splitNl : List Char → List (List Char)
  | [] => [[]]
  | c :: cs =>
    match splitNl cs with
    | [] => [[]]
    | l :: ls => if c == '\n' then [] :: l :: ls else (c :: l) :: ls

/-- Python `'\n'.join(fields)`. -/
def joinNl : List (List Char) → List Char
  | [] => []
  | [l] => l
  | l :: l2 :: ls => l ++ '\n' :: joinNl (l2 :: ls)

/-- Which branch of a script's loop appended an output entry.  This is
bookkeeping only: the written file depends on entries through their
text alone. -/
inductive Tag where
  | topic
  | question (n : Nat)
  | answer
  | blank
  | pass
deriving DecidableEq

/-- One element of a script's `processed_lines` list, with the branch
that appended it. -/
structure Entry where
  tag : Tag
  txt : List Char
deriving DecidableEq

/-- The texts of the processed entries (the actual `processed_lines`). -/
def entryTexts (es : List Entry) : List (List Char) := es.map Entry.txt

/-- The lines of the written output document:
`'\n'.join(processed_lines)` split back into lines. -/
def docLines (es : List Entry) : List (List Char) :=
  splitNl (joinNl (entryTexts es))

/-- Number of entries appended by the topic branch. -/
def topicEntryCount (es : List Entry) : Nat :=
  es.countP (fun e => match e.tag with | .topic => true | _ => false)

/-! ### clean_db_final.py -/

/-- The fluff-removal stage of `clean_db_final` (lines 23-25). -/
def cdf_fluff (content : List Char) : List Char :=
  subAll flIS cdfFluffPats content

/-- Topic-header test of `clean_db_final` (lines 42-47), on the already
stripped line. -/
def cdfIsTopic (s : List Char) : Bool :=
  (reMatch flN cdfTopicRE s).isSome && decide (15 < s.length) &&
    !pfxL (str "Q:") s && !s.contains '?' && !isQLine s

/-- Answer lookahead of `clean_db_final` (lines 61-78): skip non-empty
lines that are neither answers nor questions; stop at the first `A:`
line (returning the cleaned answer text and the lines after it), or at
the first empty or `Q:` line or the end of input (returning that line
for the outer loop to reprocess, per the `i -= 1` / `i += 1`
bookkeeping of lines 80-82). -/
def cdf_scan : List (List Char) → Option (List Char) × List (List Char)
  | [] => (none, [])
  | l :: ls =>
    let s := pyStrip l
    if pfxL (str "A:") s then (some (collapseWS (pyStrip (s.drop 2))), ls)
    else if !s.isEmpty && !pfxL (str "Q:") s then cdf_scan ls
    else (none, l :: ls)

/-- Main loop of `clean_db_final` (lines 32-85).  `started` records
whether `processed_lines` is non-empty (the leading-blank skip at
lines 37-39); `c` is `question_number`.  The fuel decreases once per
outer iteration; each iteration consumes at least one line, so
`lines.length` fuel is enough. -/
def cdf_go : Nat → Bool → Nat → List (List Char) → List Entry
  | 0, _, _, _ => []
  | _ + 1, _, _, [] => []
  | fuel + 1, started, c, l :: rest =>
    let s := pyStrip l
    if s.isEmpty && !started then cdf_go fuel started c rest
    else if cdfIsTopic s then
      ⟨.topic, '\n' :: str "## " ++ s⟩ :: ⟨.blank, []⟩ :: cdf_go fuel true 1 rest
    else if pfxL (str "Q:") s then
      ⟨.question c, natStr c ++ str ". Q: " ++ pyStrip (s.drop 2)⟩ ::
        (match cdf_scan rest with
         | (some t, rest2) =>
           if t.isEmpty then cdf_go fuel true (c + 1) rest2
           else ⟨.answer, str "A: " ++ t⟩ :: ⟨.blank, []⟩ :: cdf_go fuel true (c + 1) rest2
         | (none, rest2) => cdf_go fuel true (c + 1) rest2)
    else cdf_go fuel started c rest

/-- `clean_db_final`: processed entries for a whole input text.  (The
input-file read, output-file write and prints are I/O shells around
this computation.) -/
def clean_db_final (content : List Char) : List Entry :=
  let lines := splitNl (cdf_fluff content)
  cdf_go lines.length false 1 lines

/-- Lines of the document written by `clean_db_final`. -/
def clean_db_final_doc (content : List Char) : List (List Char) :=
  docLines (clean_db_final content)

/-- The three counts printed by `clean_db_final` (lines 92-94):
entries starting with `## `, entries matching `^\d+\.\s*Q:`, entries
starting with `A:`. -/
def cdf_counts (content : List Char) : Nat × Nat × Nat :=
  let ts := entryTexts (clean_db_final content)
  (ts.countP (fun t => pfxL (str "## ") t),
   ts.countP (fun t => isQLine t),
   ts.countP (fun t => pfxL (str "A:") t))

/-! ### process_db_qa.py -/

/-- The fluff-removal stage of `process_db_qa` (lines 27-30). -/
def pdq_fluff (content : List Char) : List Char :=
  subAll flIS pdqFluffPats content

/-- Topic test of `process_db_qa` (lines 48-49). -/
def pdqIsTopic (s : List Char) : Bool :=
  (reMatch flN pdqTopicRE s).isSome && !pfxL (str "Q:") s && decide (30 < s.length)

/-- Skip test of `process_db_qa` (lines 83-94). -/
def pdqSkip (s : List Char) : Bool :=
  pdqSkipPats.any (fun p => (reMatch flI p s).isSome)

/-- Answer cleaning of `process_db_qa` (lines 64-75): remove the arrow
pattern, collapse whitespace, strip. -/
def pdqCleanAnswer (t : List Char) : List Char :=
  pyStrip (collapseWS (reSub flN arrowRE [] t))

/-- Main loop of `process_db_qa` (lines 40-100), a single pass over the
lines.  (`current_topic` is assigned but never read and is omitted.) -/
def pdq_go : Bool → Nat → List (List Char) → List Entry
  | _, _, [] => []
  | started, c, l :: rest =>
    let s := pyStrip l
    if s.isEmpty && !started then pdq_go started c rest
    else if pdqIsTopic s then
      ⟨.topic, '\n' :: str "## " ++ s ++ ['\n']⟩ :: pdq_go true 1 rest
    else if pfxL (str "Q:") s then
      ⟨.question c, natStr c ++ str ". Q: " ++ pyStrip (s.drop 2)⟩ :: pdq_go true (c + 1) rest
    else if pfxL (str "A:") s then
      let t := pdqCleanAnswer (pyStrip (s.drop 2))
      if t.isEmpty then pdq_go started c rest
      else ⟨.answer, str "A: " ++ t⟩ :: ⟨.blank, []⟩ :: pdq_go true c rest
    else if pdqSkip s then pdq_go started c rest
    else if !s.isEmpty && decide (3 < s.length) then ⟨.pass, s⟩ :: pdq_go true c rest
    else pdq_go started c rest

/-- `process_db_qa`: processed entries for a whole input text. -/
def process_db_qa (content : List Char) : List Entry :=
  pdq_go false 1 (splitNl (pdq_fluff content))

/-- Lines of the document written by `process_db_qa`. -/
def process_db_qa_doc (content : List Char) : List (List Char) :=
  docLines (process_db_qa content)

/-- The triple printed and returned by `process_db_qa` (lines 107-116). -/
def pdq_counts (content : List Char) : Nat × Nat × Nat :=
  let ts := entryTexts (process_db_qa content)
  (ts.countP (fun t => pfxL (str "## ") t),
   ts.countP (fun t => isQLine t),
   ts.countP (fun t => pfxL (str "A:") t))

/-! ### process_db_qa_improved.py -/

/-- The fluff-removal stage of `process_db_qa_improved` (lines 27-30). -/
def imp_fluff (content : List Char) : List Char :=
  subAll flIS impFluffPats content

/-- Topic test of `process_db_qa_improved` (lines 51-54). -/
def impIsTopic (s : List Char) : Bool :=
  (reMatch flN impTopicRE s).isSome && decide (20 < s.length) &&
    !pfxL (str "Q:") s && !s.contains '?'

/-- Answer lookahead of `process_db_qa_improved` (lines 70-88): skip
empty lines; stop at the first `A:` line, or at the first other
non-empty line (returned for reprocessing, per the `i -= 1` at line
87), or at the end of input. -/
def imp_scan : List (List Char) → Option (List Char) × List (List Char)
  | [] => (none, [])
  | l :: ls =>
    let s := pyStrip l
    if pfxL (str "A:") s then (some (collapseWS (pyStrip (s.drop 2))), ls)
    else if s.isEmpty then imp_scan ls
    else (none, l :: ls)

/-- Main loop of `process_db_qa_improved` (lines 40-111).
(`current_topic` and `global_question_counter` are written but never
read and are omitted; the skip-pattern check at lines 93-109 has no
observable effect because non-matching lines are discarded too.) -/
def imp_go : Nat → Bool → Nat → List (List Char) → List Entry
  | 0, _, _, _ => []
  | _ + 1, _, _, [] => []
  | fuel + 1, started, c, l :: rest =>
    let s := pyStrip l
    if s.isEmpty && !started then imp_go fuel started c rest
    else if impIsTopic s then
      ⟨.topic, '\n' :: str "## " ++ s ++ ['\n']⟩ :: imp_go fuel true 1 rest
    else if pfxL (str "Q:") s then
      ⟨.question c, natStr c ++ str ". Q: " ++ pyStrip (s.drop 2)⟩ ::
        (match imp_scan rest with
         | (some t, rest2) =>
           if t.isEmpty then imp_go fuel true (c + 1) rest2
           else ⟨.answer, str "A: " ++ t⟩ :: ⟨.blank, []⟩ :: imp_go fuel true (c + 1) rest2
         | (none, rest2) => imp_go fuel true (c + 1) rest2)
    else imp_go fuel started c rest

/-- `process_db_qa_improved`: processed entries for a whole input text. -/
def process_db_qa_improved (content : List Char) : List Entry :=
  let lines := splitNl (imp_fluff content)
  imp_go lines.length false 1 lines

/-- Lines of the document written by `process_db_qa_improved`. -/
def process_db_qa_improved_doc (content : List Char) : List (List Char) :=
  docLines (process_db_qa_improved content)

/-! ### simple_clean.py -/

/-- `simple_clean` (lines 40-47): apply the fluff patterns, then the
two cleanup substitutions `re.sub(r'  +', ' ', ..)` and
`re.sub(r'\.+', '.', ..)`. -/
def simple_clean (content : List Char) : List Char :=
  collapsePeriodRuns (collapseSpaceRuns (subAll flIS scFluffPats content))

/-- Lines of the document written by `simple_clean` (it writes the
cleaned text verbatim). -/
def simple_clean_doc (content : List Char) : List (List Char) :=
  splitNl (simple_clean content)

/-! ### reorder_questions.py -/

/-- One structured Q&A record of `reorder_questions` (lines 66-70). -/
structure QA where
  orig : Nat
  question : List Char
  answer : List Char
deriving DecidableEq

/-- `re.split(r'(\d+\.\s*Q:)', content)` (line 18). -/
def reorderParts (content : List Char) : List (List Char) :=
  reSplitCap flN reorderMarkRE content

/-- Accumulation of `qa_pairs` from the split parts (lines 20-33):
marker parts start a new chunk (flushing the stripped previous chunk if
non-empty), other parts are appended when they are not pure
whitespace. -/
def gatherQAs : List Char → List (List Char) → List (List Char)
  | current, [] => if (pyStrip current).isEmpty then [] else [pyStrip current]
  | current, p :: ps =>
    if isQLine p then
      if (pyStrip current).isEmpty then gatherQAs p ps
      else pyStrip current :: gatherQAs p ps
    else if (pyStrip p).isEmpty then gatherQAs current ps
    else gatherQAs (current ++ p) ps

/-- Manual answer scan fallback of `reorder_questions` (lines 51-61).
Note the question-marker test runs on the unstripped line, as in the
source. -/
def reorderFallbackGo : Bool → List (List Char) → List (List Char)
  | _, [] => []
  | found, line :: ls =>
    let s := pyStrip line
    if pfxL (str "A:") s then pyStrip (s.drop 2) :: reorderFallbackGo true ls
    else if found && !s.isEmpty && !isQLine line then s :: reorderFallbackGo true ls
    else if found && isQLine line then []
    else reorderFallbackGo found ls

/-- Answer extraction for one chunk (lines 46-63): greedy regex first,
manual line scan as fallback. -/
def reorderAnswer (qa : List Char) : List Char :=
  match reSearch flS reorderAnsRE qa with
  | some (_, _, caps) =>
    match capGet caps 1 qa with
    | some g => pyStrip g
    | none => []
  | none =>
    pyStrip (List.intercalate [' '] (reorderFallbackGo false (splitNl qa)))

/-- Parse one chunk into a structured record (lines 38-70): the chunk
is dropped when the head pattern does not match or the extracted answer
text is empty. -/
def reorderParse (qa : List Char) : Option QA :=
  match reMatch flN reorderHeadRE qa with
  | none => none
  | some (_, caps) =>
    match capGet caps 1 qa, capGet caps 2 qa with
    | some g1, some g2 =>
      let ans := reorderAnswer qa
      if ans.isEmpty then none
      else some ⟨digitsVal g1, pyStrip g2, ans⟩
    | _, _ => none

/-- The `structured_pairs` list (input order). -/
def reorderPairs (content : List Char) : List QA :=
  (gatherQAs [] (reorderParts content)).filterMap reorderParse

/-- Sort key comparison: `lambda x: x['original_num']`, ascending.
Python `list.sort` is stable; `List.mergeSort` is the stable sort of
the Lean library. -/
def qaLE (a b : QA) : Bool := decide (a.orig ≤ b.orig)

/-- The sorted pairs (line 73). -/
def reorderSorted (content : List Char) : List QA :=
  (reorderPairs content).mergeSort qaLE

/-- Output lines for the sorted pairs, numbered from `i` (lines 76-81). -/
def reorderBlocks : Nat → List QA → List (List Char)
  | _, [] => []
  | i, p :: ps =>
    (natStr i ++ str ". Q: " ++ p.question) :: (str "A: " ++ p.answer) :: [] ::
      reorderBlocks (i + 1) ps

/-- `reorder_questions`: the `output_lines` written (joined by
newlines) to the output file. -/
def reorder_questions (content : List Char) : List (List Char) :=
  reorderBlocks 1 (reorderSorted content)

/-- Numbers of the question lines of an output, in order. -/
def qLineNums (ls : List (List Char)) : List Nat :=
  ls.filterMap (fun l => if isQLine l then some (digitsVal (l.takeWhile Char.isDigit)) else none)

/-! ### Basic lemmas about lines, joining and splitting -/

/-- No two adjacent whitespace characters. -/
def noAdjWS : List Char → Bool
  | [] => true
  | [_] => true
  | c :: d :: r => !(pySpace c && pySpace d) && noAdjWS (d :: r)

/-- Whitespace-normalised text: every whitespace character is a plain
space and no two of them are adjacent. -/
def wsNormB (t : List Char) : Bool :=
  t.all (fun c => !pySpace c || c == ' ') && noAdjWS t

/-- Shape invariant for the entries of `clean_db_final`. -/
def entryOKcdf (e : Entry) : Prop :=
  match e.tag with
  | .topic => ∃ s, e.txt = '\n' :: (str "## " ++ s) ∧ '\n' ∉ s
  | .question n => 1 ≤ n ∧ ∃ t, e.txt = natStr n ++ str ". Q: " ++ t ∧ '\n' ∉ t
  | .answer => ∃ t, e.txt = str "A: " ++ t ∧ t ≠ [] ∧ wsNormB t = true
  | .blank => e.txt = []
  | .pass => False

/-- Shape invariant for the entries of `process_db_qa`. -/
def entryOKpdq (e : Entry) : Prop :=
  match e.tag with
  | .topic => ∃ s, e.txt = '\n' :: (str "## " ++ s ++ ['\n']) ∧ '\n' ∉ s
  | .question n => 1 ≤ n ∧ ∃ t, e.txt = natStr n ++ str ". Q: " ++ t ∧ '\n' ∉ t
  | .answer => ∃ t, e.txt = str "A: " ++ t ∧ t ≠ [] ∧ wsNormB t = true
  | .blank => e.txt = []
  | .pass => '\n' ∉ e.txt ∧ pdqSkip e.txt = false ∧ pfxL (str "A:") e.txt = false ∧
      pfxL (str "Q:") e.txt = false

/-- Shape invariant for the entries of `process_db_qa_improved`. -/
def entryOKimp (e : Entry) : Prop :=
  match e.tag with
  | .topic => ∃ s, e.txt = '\n' :: (str "## " ++ s ++ ['\n']) ∧ '\n' ∉ s
  | .question n => 1 ≤ n ∧ ∃ t, e.txt = natStr n ++ str ". Q: " ++ t ∧ '\n' ∉ t
  | .answer => ∃ t, e.txt = str "A: " ++ t ∧ t ≠ [] ∧ wsNormB t = true
  | .blank => e.txt = []
  | .pass => False

/-- Question numbers of an entry list, segmented at topic entries: the
numbers appearing before the first topic heading, and one list per
emitted topic heading. -/
def segQ : List Entry → List Nat × List (List Nat)
  | [] => ([], [])
  | e :: es =>
    let r := segQ es
    match e.tag with
    | .topic => ([], r.1 :: r.2)
    | .question n => (n :: r.1, r.2)
    | _ => r

/-- The first scope's numbers count up from `c`; every later scope's
numbers count up from `1`. -/
def goodSegs (p : List Nat × List (List Nat)) (c : Nat) : Prop :=
  p.1 = List.range' c p.1.length ∧ ∀ sg ∈ p.2, sg = List.range' 1 sg.length

/-- One topic-branch entry per `.topic` tag. -/
def tTag (e : Entry) : Nat :=
  match e.tag with
  | .topic => 1
  | _ => 0

/-- What the counting argument needs from each entry: non-topic entries
contain no newline (so they appear in the document verbatim); topic
entries split into a leading empty line, one `## ` heading line and
possibly a trailing empty line, while the entry text itself starts with
a newline and so matches none of the counted patterns. -/
def cSplitOK (e : Entry) : Prop :=
  match e.tag with
  | .topic => ∃ u, (splitNl e.txt = [[], u] ∨ splitNl e.txt = [[], u, []]) ∧
      isQLine u = false ∧ pfxL (str "A:") u = false ∧ pfxL (str "## ") u = true ∧
      isQLine e.txt = false ∧ pfxL (str "A:") e.txt = false ∧
      pfxL (str "## ") e.txt = false
  | _ => '\n' ∉ e.txt

theorem splitNl_ne_nil (t : List Char) : splitNl t ≠ [] := by
  cases t with
  | nil => simp [splitNl]
  | cons c cs =>
    simp only [splitNl]
    cases h : splitNl cs with
    | nil => simp
    | cons l ls =>
      by_cases hc : (c == '\n') = true
      · simp [hc]
      · simp [hc]

theorem splitNl_nlFree {t : List Char} (h : '\n' ∉ t) : splitNl t = [t] := by
  induction t with
  | nil => rfl
  | cons c cs ih =>
    have hc : (c == '\n') = false := by
      simp only [beq_eq_false_iff_ne, ne_eq]
      intro hh
      exact h (hh ▸ List.mem_cons_self _ _)
    have hcs : '\n' ∉ cs := fun hh => h (List.mem_cons_of_mem _ hh)
    simp [splitNl, ih hcs, hc]

theorem splitNl_append (a b : List Char) :
    splitNl (a ++ '\n' :: b) = splitNl a ++ splitNl b := by
  induction a with
  | nil =>
    show splitNl ('\n' :: b) = _
    simp only [splitNl]
    cases h : splitNl b with
    | nil => exact absurd h (splitNl_ne_nil b)
    | cons l ls => simp [splitNl]
  | cons c cs ih =>
    show splitNl (c :: (cs ++ '\n' :: b)) = _
    simp only [splitNl, ih]
    cases h : splitNl cs with
    | nil => exact absurd h (splitNl_ne_nil cs)
    | cons m ms =>
      by_cases hc : (c == '\n') = true
      · simp [hc]
      · simp [hc]

theorem mem_splitNl_nlFree {t : List Char} : ∀ l ∈ splitNl t, '\n' ∉ l := by
  induction t with
  | nil =>
    intro l hl
    simp [splitNl] at hl
    simp [hl]
  | cons c cs ih =>
    intro l hl
    simp only [splitNl] at hl
    cases h : splitNl cs with
    | nil => exact absurd h (splitNl_ne_nil cs)
    | cons m ms =>
      rw [h] at hl
      by_cases hc : (c == '\n') = true
      · simp only [hc, if_true] at hl
        rcases List.mem_cons.1 hl with rfl | hl2
        · simp
        · exact ih l (h ▸ hl2)
      · simp only [hc, if_false] at hl
        rcases List.mem_cons.1 hl with rfl | hl2
        · have hm : '\n' ∉ m := ih m (h ▸ List.mem_cons_self _ _)
          intro hmem
          rcases List.mem_cons.1 hmem with h1 | h2
          · exact hc (by rw [← h1]; simp)
          · exact hm h2
        · exact ih l (h ▸ List.mem_cons_of_mem _ hl2)

theorem docLines_nil : docLines [] = [[]] := rfl

theorem docLines_single (e : Entry) : docLines [e] = splitNl e.txt := rfl

theorem docLines_cons (e : Entry) {es : List Entry} (h : es ≠ []) :
    docLines (e :: es) = splitNl e.txt ++ docLines es := by
  cases es with
  | nil => exact absurd rfl h
  | cons f fs =>
    show splitNl (joinNl (e.txt :: f.txt :: entryTexts fs)) = _
    rw [show joinNl (e.txt :: f.txt :: entryTexts fs)
        = e.txt ++ '\n' :: joinNl (f.txt :: entryTexts fs) from rfl]
    exact splitNl_append _ _

theorem mem_docLines {es : List Entry} {l : List Char} (h : l ∈ docLines es) :
    l = [] ∨ ∃ e ∈ es, l ∈ splitNl e.txt := by
  induction es with
  | nil =>
    left
    simpa [docLines_nil] using h
  | cons e es ih =>
    cases es with
    | nil =>
      right
      exact ⟨e, List.mem_cons_self _ _, by simpa [docLines_single] using h⟩
    | cons f fs =>
      rw [docLines_cons e (by simp)] at h
      rcases List.mem_append.1 h with h1 | h2
      · exact Or.inr ⟨e, List.mem_cons_self _ _, h1⟩
      · rcases ih h2 with h3 | ⟨g, hg, hgl⟩
        · exact Or.inl h3
        · exact Or.inr ⟨g, List.mem_cons_of_mem _ hg, hgl⟩

/-! ### Lemmas about prefixes, stripping and whitespace collapsing -/

theorem pfxL_iff (p l : List Char) : pfxL p l = true ↔ ∃ r, l = p ++ r := by
  induction p generalizing l with
  | nil => simp [pfxL]
  | cons a as ih =>
    cases l with
    | nil =>
      simp only [pfxL]
      constructor
      · intro h
        cases h
      · rintro ⟨r, hr⟩
        cases hr
    | cons c cs =>
      simp only [pfxL, Bool.and_eq_true, beq_iff_eq, ih]
      constructor
      · rintro ⟨rfl, r, rfl⟩
        exact ⟨r, rfl⟩
      · rintro ⟨r, hr⟩
        rw [List.cons_append] at hr
        injection hr with h1 h2
        exact ⟨h1.symm, r, h2⟩

theorem pfxL_append (p r : List Char) : pfxL p (p ++ r) = true :=
  (pfxL_iff p _).2 ⟨r, rfl⟩

theorem dropTrailWS_sublist (l : List Char) : dropTrailWS l <+ l := by
  induction l with
  | nil => simp [dropTrailWS]
  | cons c cs ih =>
    simp only [dropTrailWS]
    cases h : dropTrailWS cs with
    | nil =>
      by_cases hc : pySpace c = true
      · simp [hc]
      · simp [hc]
    | cons d ds =>
      rw [h] at ih
      exact ih.cons₂ c

theorem pyStrip_sublist (l : List Char) : pyStrip l <+ l :=
  (dropTrailWS_sublist _).trans (List.dropWhile_sublist _)

theorem nlFree_pyStrip {l : List Char} (h : '\n' ∉ l) : '\n' ∉ pyStrip l :=
  fun hm => h ((pyStrip_sublist l).subset hm)

theorem nlFree_drop {l : List Char} (n : Nat) (h : '\n' ∉ l) : '\n' ∉ l.drop n :=
  fun hm => h ((List.drop_sublist n l).subset hm)

theorem noAdjWS_tail {c : Char} {t : List Char} (h : noAdjWS (c :: t) = true) :
    noAdjWS t = true := by
  cases t with
  | nil => rfl
  | cons d r =>
    simp only [noAdjWS, Bool.and_eq_true] at h
    exact h.2

theorem noAdjWS_suffix {a b : List Char} (h : a <:+ b) (hb : noAdjWS b = true) :
    noAdjWS a = true := by
  obtain ⟨pre, rfl⟩ := h
  induction pre with
  | nil => exact hb
  | cons x xs ih => exact ih (noAdjWS_tail hb)

theorem noAdjWS_append_left {a b : List Char} (h : noAdjWS (a ++ b) = true) :
    noAdjWS a = true := by
  induction a with
  | nil => rfl
  | cons x xs ih =>
    cases xs with
    | nil => rfl
    | cons y ys =>
      simp only [List.cons_append, noAdjWS, Bool.and_eq_true] at h ⊢
      exact ⟨h.1, ih h.2⟩

theorem dropTrailWS_pre (l : List Char) : ∃ u, dropTrailWS l ++ u = l := by
  induction l with
  | nil => exact ⟨[], rfl⟩
  | cons c cs ih =>
    simp only [dropTrailWS]
    cases h : dropTrailWS cs with
    | nil =>
      by_cases hc : pySpace c = true
      · exact ⟨c :: cs, by simp [hc]⟩
      · exact ⟨cs, by simp [hc]⟩
    | cons d ds =>
      obtain ⟨u, hu⟩ := ih
      rw [h] at hu
      exact ⟨u, by simpa using hu⟩

theorem cwAux_space_true {c : Char} (cs : List Char) (hc : pySpace c = true) :
    cwAux true (c :: cs) = cwAux true cs := by
  simp [cwAux, hc]

theorem cwAux_space_false {c : Char} (cs : List Char) (hc : pySpace c = true) :
    cwAux false (c :: cs) = ' ' :: cwAux true cs := by
  simp [cwAux, hc]

theorem cwAux_nonspace {c : Char} (b : Bool) (cs : List Char) (hc : pySpace c = false) :
    cwAux b (c :: cs) = c :: cwAux false cs := by
  simp [cwAux, hc]

theorem cw_all (b : Bool) (t : List Char) :
    (cwAux b t).all (fun c => !pySpace c || c == ' ') = true := by
  induction t generalizing b with
  | nil => rfl
  | cons c cs ih =>
    cases hc : pySpace c with
    | true =>
      cases b with
      | true => rw [cwAux_space_true cs hc]; exact ih true
      | false =>
        rw [cwAux_space_false cs hc]
        simp [List.all_cons, ih true]
    | false =>
      rw [cwAux_nonspace b cs hc]
      simp [List.all_cons, hc, ih false]

theorem cw_head_true (t : List Char) :
    ∀ c, (cwAux true t).head? = some c → pySpace c = false := by
  induction t with
  | nil => intro c h; cases h
  | cons d ds ih =>
    intro c h
    cases hd : pySpace d with
    | true =>
      rw [cwAux_space_true ds hd] at h
      exact ih c h
    | false =>
      rw [cwAux_nonspace true ds hd] at h
      simp only [List.head?_cons, Option.some.injEq] at h
      subst h
      exact hd

theorem cw_noAdj (b : Bool) (t : List Char) : noAdjWS (cwAux b t) = true := by
  induction t generalizing b with
  | nil => rfl
  | cons c cs ih =>
    cases hc : pySpace c with
    | true =>
      cases b with
      | true => rw [cwAux_space_true cs hc]; exact ih true
      | false =>
        rw [cwAux_space_false cs hc]
        cases h : cwAux true cs with
        | nil => rfl
        | cons d r =>
          have hd : pySpace d = false := cw_head_true cs d (by simp [h])
          have h2 := ih true
          rw [h] at h2
          simp [noAdjWS, hd, h2]
    | false =>
      rw [cwAux_nonspace b cs hc]
      cases h : cwAux false cs with
      | nil => rfl
      | cons d r =>
        have h2 := ih false
        rw [h] at h2
        simp [noAdjWS, hc, h2]

theorem wsNormB_cw (t : List Char) : wsNormB (collapseWS t) = true := by
  simp [wsNormB, collapseWS, cw_all, cw_noAdj]

theorem wsNormB_strip {t : List Char} (h : wsNormB t = true) :
    wsNormB (pyStrip t) = true := by
  simp only [wsNormB, Bool.and_eq_true] at h ⊢
  constructor
  · rw [List.all_eq_true] at h ⊢
    intro x hx
    exact h.1 x ((pyStrip_sublist t).subset hx)
  · have h1 : noAdjWS (t.dropWhile pySpace) = true :=
      noAdjWS_suffix (List.dropWhile_suffix _) h.2
    obtain ⟨u, hu⟩ := dropTrailWS_pre (t.dropWhile pySpace)
    have : noAdjWS (dropTrailWS (t.dropWhile pySpace) ++ u) = true := by
      rw [hu]; exact h1
    exact noAdjWS_append_left this

theorem wsNormB_nlFree {t : List Char} (h : wsNormB t = true) : '\n' ∉ t := by
  intro hm
  simp only [wsNormB, Bool.and_eq_true, List.all_eq_true] at h
  have := h.1 '\n' hm
  simp [pySpace] at this

/-! ### Decimal rendering lemmas -/

theorem char_ofNat_digit {m : Nat} (hm : m < 10) :
    (Char.ofNat (48 + m)).isDigit = true ∧ (Char.ofNat (48 + m)).toNat = 48 + m := by
  interval_cases m <;> exact ⟨rfl, rfl⟩

theorem natStrGo_digits (fuel : Nat) :
    ∀ n acc, (∀ c ∈ acc, c.isDigit = true) → ∀ c ∈ natStrGo fuel n acc, c.isDigit = true := by
  induction fuel with
  | zero => intro n acc hacc c hc; exact hacc c hc
  | succ f ih =>
    intro n acc hacc c hc
    have hd := (char_ofNat_digit (Nat.mod_lt n (by omega))).1
    simp only [natStrGo] at hc
    by_cases hn : n < 10
    · rw [if_pos hn] at hc
      rcases List.mem_cons.1 hc with rfl | h2
      · exact hd
      · exact hacc c h2
    · rw [if_neg hn] at hc
      refine ih (n / 10) _ ?_ c hc
      intro x hx
      rcases List.mem_cons.1 hx with rfl | h2
      · exact hd
      · exact hacc x h2

theorem natStr_digits (n : Nat) : ∀ c ∈ natStr n, c.isDigit = true :=
  natStrGo_digits (n + 1) n [] (by intro c hc; cases hc)

theorem natStrGo_ne_nil (fuel : Nat) :
    ∀ n acc, n < fuel → natStrGo fuel n acc ≠ [] := by
  induction fuel with
  | zero => intro n acc h; omega
  | succ f ih =>
    intro n acc h
    simp only [natStrGo]
    by_cases hn : n < 10
    · rw [if_pos hn]; simp
    · rw [if_neg hn]
      refine ih (n / 10) _ ?_
      have h1 : n / 10 < n := Nat.div_lt_self (by omega) (by omega)
      omega

theorem natStr_ne_nil (n : Nat) : natStr n ≠ [] :=
  natStrGo_ne_nil (n + 1) n [] (by omega)

theorem natStrGo_val (fuel : Nat) :
    ∀ n acc, n < fuel →
      digitsVal (natStrGo fuel n acc) =
        acc.foldl (fun a c => a * 10 + (c.toNat - 48)) n := by
  induction fuel with
  | zero => intro n acc h; omega
  | succ f ih =>
    intro n acc h
    have hm : n % 10 < 10 := Nat.mod_lt n (by omega)
    have hchar := (char_ofNat_digit hm).2
    simp only [natStrGo]
    by_cases hn : n < 10
    · rw [if_pos hn]
      have hmod : n % 10 = n := Nat.mod_eq_of_lt hn
      rw [hmod] at hchar
      simp only [digitsVal, List.foldl_cons, hmod, hchar]
      congr 1
      omega
    · rw [if_neg hn]
      have h1 : n / 10 < n := Nat.div_lt_self (by omega) (by omega)
      rw [ih (n / 10) _ (by omega)]
      simp only [List.foldl_cons, hchar]
      have : n / 10 * 10 + (48 + n % 10 - 48) = n := by
        have := Nat.div_add_mod n 10
        omega
      rw [this]

theorem digitsVal_natStr (n : Nat) : digitsVal (natStr n) = n := by
  have := natStrGo_val (n + 1) n [] (by omega)
  simpa [natStr] using this

/-! ### Question-line recognition of constructed lines -/

theorem takeWhile_all_append {p : Char → Bool} {a : List Char} {x : Char} {r : List Char}
    (ha : ∀ c ∈ a, p c = true) (hx : p x = false) :
    (a ++ x :: r).takeWhile p = a := by
  induction a with
  | nil => simp [List.takeWhile_cons, hx]
  | cons c cs ih =>
    have hc : p c = true := ha c (List.mem_cons_self _ _)
    simp only [List.cons_append, List.takeWhile_cons, hc, if_true]
    rw [ih (fun d hd => ha d (List.mem_cons_of_mem _ hd))]

theorem dropWhile_all_append {p : Char → Bool} {a : List Char} {x : Char} {r : List Char}
    (ha : ∀ c ∈ a, p c = true) (hx : p x = false) :
    (a ++ x :: r).dropWhile p = x :: r := by
  induction a with
  | nil => simp [List.dropWhile_cons, hx]
  | cons c cs ih =>
    have hc : p c = true := ha c (List.mem_cons_self _ _)
    simp only [List.cons_append, List.dropWhile_cons, hc, if_true]
    exact ih (fun d hd => ha d (List.mem_cons_of_mem _ hd))

theorem isQLine_qentry (n : Nat) (t : List Char) :
    isQLine (natStr n ++ str ". Q: " ++ t) = true := by
  have hdig := natStr_digits n
  have hdot : ('.' : Char).isDigit = false := rfl
  have e1 : (natStr n ++ str ". Q: " ++ t).takeWhile Char.isDigit = natStr n := by
    rw [List.append_assoc]
    exact takeWhile_all_append hdig hdot
  have e2 : (natStr n ++ str ". Q: " ++ t).dropWhile Char.isDigit
      = '.' :: (str " Q: " ++ t) := by
    rw [List.append_assoc]
    exact dropWhile_all_append hdig hdot
  simp only [isQLine, e1, e2]
  have e3 : (str " Q: " ++ t).dropWhile pySpace = str "Q: " ++ t := by
    show List.dropWhile pySpace (' ' :: 'Q' :: (str ": " ++ t)) = 'Q' :: (str ": " ++ t)
    rw [List.dropWhile_cons]
    simp only [show pySpace ' ' = true from rfl, if_true]
    rw [List.dropWhile_cons]
    simp [show pySpace 'Q' = false from rfl]
  rw [e3]
  have e4 : str "Q: " ++ t = str "Q:" ++ (' ' :: t) := rfl
  simp [natStr_ne_nil n, e4, pfxL_append]

theorem qnum_of_qentry (n : Nat) (t : List Char) :
    digitsVal ((natStr n ++ str ". Q: " ++ t).takeWhile Char.isDigit) = n := by
  have e1 : (natStr n ++ str ". Q: " ++ t).takeWhile Char.isDigit = natStr n := by
    rw [List.append_assoc]
    exact takeWhile_all_append (natStr_digits n) rfl
  rw [e1, digitsVal_natStr]

theorem isQLine_nondigit_head {c : Char} (r : List Char) (hc : c.isDigit = false) :
    isQLine (c :: r) = false := by
  simp [isQLine, List.takeWhile_cons, hc]

theorem isQLine_nil : isQLine [] = false := rfl

theorem natStr_head_digit (n : Nat) : ∃ c r, natStr n = c :: r ∧ c.isDigit = true := by
  cases h : natStr n with
  | nil => exact absurd h (natStr_ne_nil n)
  | cons c r =>
    exact ⟨c, r, rfl, natStr_digits n c (h ▸ List.mem_cons_self _ _)⟩

/-! ### Answer-scan lemmas -/

theorem cdf_scan_suffix (ls : List (List Char)) : (cdf_scan ls).2 <:+ ls := by
  induction ls with
  | nil => exact ⟨[], rfl⟩
  | cons l ls ih =>
    simp only [cdf_scan]
    by_cases h1 : pfxL (str "A:") (pyStrip l) = true
    · rw [if_pos h1]
      exact ⟨[l], rfl⟩
    · rw [if_neg h1]
      by_cases h2 : (!(pyStrip l).isEmpty && !pfxL (str "Q:") (pyStrip l)) = true
      · rw [if_pos h2]
        exact ih.trans ⟨[l], rfl⟩
      · rw [if_neg h2]

theorem cdf_scan_some {ls : List (List Char)} {t : List Char}
    (h : (cdf_scan ls).1 = some t) : wsNormB t = true := by
  induction ls with
  | nil => simp [cdf_scan] at h
  | cons l ls ih =>
    simp only [cdf_scan] at h
    by_cases h1 : pfxL (str "A:") (pyStrip l) = true
    · rw [if_pos h1] at h
      simp only [Option.some.injEq] at h
      rw [← h]
      exact wsNormB_cw _
    · rw [if_neg h1] at h
      by_cases h2 : (!(pyStrip l).isEmpty && !pfxL (str "Q:") (pyStrip l)) = true
      · rw [if_pos h2] at h
        exact ih h
      · rw [if_neg h2] at h
        simp at h

theorem imp_scan_suffix (ls : List (List Char)) : (imp_scan ls).2 <:+ ls := by
  induction ls with
  | nil => exact ⟨[], rfl⟩
  | cons l ls ih =>
    simp only [imp_scan]
    by_cases h1 : pfxL (str "A:") (pyStrip l) = true
    · rw [if_pos h1]
      exact ⟨[l], rfl⟩
    · rw [if_neg h1]
      by_cases h2 : (pyStrip l).isEmpty = true
      · rw [if_pos h2]
        exact ih.trans ⟨[l], rfl⟩
      · rw [if_neg h2]

theorem imp_scan_some {ls : List (List Char)} {t : List Char}
    (h : (imp_scan ls).1 = some t) : wsNormB t = true := by
  induction ls with
  | nil => simp [imp_scan] at h
  | cons l ls ih =>
    simp only [imp_scan] at h
    by_cases h1 : pfxL (str "A:") (pyStrip l) = true
    · rw [if_pos h1] at h
      simp only [Option.some.injEq] at h
      rw [← h]
      exact wsNormB_cw _
    · rw [if_neg h1] at h
      by_cases h2 : (pyStrip l).isEmpty = true
      · rw [if_pos h2] at h
        exact ih h
      · rw [if_neg h2] at h
        simp at h

/-! ### Shape invariants of the processed entries -/

theorem cdf_go_ok (fuel : Nat) :
    ∀ st c ls, 1 ≤ c → (∀ l ∈ ls, '\n' ∉ l) →
      ∀ e ∈ cdf_go fuel st c ls, entryOKcdf e := by
  induction fuel with
  | zero => intro st c ls hc hnl e he; cases he
  | succ f ih =>
    intro st c ls hc hnl e he
    cases ls with
    | nil => cases he
    | cons l rest =>
      simp only [cdf_go] at he
      have hl : '\n' ∉ l := hnl l (List.mem_cons_self _ _)
      have hrest : ∀ x ∈ rest, '\n' ∉ x := fun x hx => hnl x (List.mem_cons_of_mem _ hx)
      by_cases h1 : ((pyStrip l).isEmpty && !st) = true
      · rw [if_pos h1] at he
        exact ih st c rest hc hrest e he
      · rw [if_neg h1] at he
        by_cases h2 : cdfIsTopic (pyStrip l) = true
        · rw [if_pos h2] at he
          rcases List.mem_cons.1 he with rfl | he2
          · exact ⟨pyStrip l, rfl, nlFree_pyStrip hl⟩
          rcases List.mem_cons.1 he2 with rfl | he3
          · rfl
          · exact ih true 1 rest (by omega) hrest e he3
        · rw [if_neg h2] at he
          by_cases h3 : pfxL (str "Q:") (pyStrip l) = true
          · rw [if_pos h3] at he
            rcases hscan : cdf_scan rest with ⟨o, rest2⟩
            have hr2 : ∀ x ∈ rest2, '\n' ∉ x := by
              intro x hx
              have hsub := cdf_scan_suffix rest
              rw [hscan] at hsub
              exact hrest x (hsub.sublist.subset hx)
            have hq : entryOKcdf
                ⟨.question c, natStr c ++ str ". Q: " ++ pyStrip ((pyStrip l).drop 2)⟩ :=
              ⟨hc, pyStrip ((pyStrip l).drop 2), rfl,
                nlFree_pyStrip (nlFree_drop 2 (nlFree_pyStrip hl))⟩
            cases o with
            | none =>
              simp only [hscan] at he
              rcases List.mem_cons.1 he with rfl | he2
              · exact hq
              · exact ih true (c + 1) rest2 (by omega) hr2 e he2
            | some t =>
              simp only [hscan] at he
              have ht : wsNormB t = true := cdf_scan_some (by rw [hscan])
              by_cases h4 : t.isEmpty = true
              · rw [if_pos h4] at he
                rcases List.mem_cons.1 he with rfl | he2
                · exact hq
                · exact ih true (c + 1) rest2 (by omega) hr2 e he2
              · rw [if_neg h4] at he
                rcases List.mem_cons.1 he with rfl | he2
                · exact hq
                rcases List.mem_cons.1 he2 with rfl | he3
                · exact ⟨t, rfl, fun hnil => h4 (by simp [hnil]), ht⟩
                rcases List.mem_cons.1 he3 with rfl | he4
                · rfl
                · exact ih true (c + 1) rest2 (by omega) hr2 e he4
          · rw [if_neg h3] at he
            exact ih st c rest hc hrest e he

theorem pdq_go_ok :
    ∀ ls st c, 1 ≤ c → (∀ l ∈ ls, '\n' ∉ l) →
      ∀ e ∈ pdq_go st c ls, entryOKpdq e := by
  intro ls
  induction ls with
  | nil => intro st c hc hnl e he; cases he
  | cons l rest ih =>
    intro st c hc hnl e he
    simp only [pdq_go] at he
    have hl : '\n' ∉ l := hnl l (List.mem_cons_self _ _)
    have hrest : ∀ x ∈ rest, '\n' ∉ x := fun x hx => hnl x (List.mem_cons_of_mem _ hx)
    by_cases h1 : ((pyStrip l).isEmpty && !st) = true
    · rw [if_pos h1] at he
      exact ih st c hc hrest e he
    · rw [if_neg h1] at he
      by_cases h2 : pdqIsTopic (pyStrip l) = true
      · rw [if_pos h2] at he
        rcases List.mem_cons.1 he with rfl | he2
        · exact ⟨pyStrip l, rfl, nlFree_pyStrip hl⟩
        · exact ih true 1 (by omega) hrest e he2
      · rw [if_neg h2] at he
        by_cases h3 : pfxL (str "Q:") (pyStrip l) = true
        · rw [if_pos h3] at he
          rcases List.mem_cons.1 he with rfl | he2
          · exact ⟨hc, pyStrip ((pyStrip l).drop 2), rfl,
              nlFree_pyStrip (nlFree_drop 2 (nlFree_pyStrip hl))⟩
          · exact ih true (c + 1) (by omega) hrest e he2
        · rw [if_neg h3] at he
          by_cases h4 : pfxL (str "A:") (pyStrip l) = true
          · rw [if_pos h4] at he
            have hws : wsNormB (pdqCleanAnswer (pyStrip ((pyStrip l).drop 2))) = true :=
              wsNormB_strip (wsNormB_cw _)
            by_cases h5 : (pdqCleanAnswer (pyStrip ((pyStrip l).drop 2))).isEmpty = true
            · rw [if_pos h5] at he
              exact ih st c hc hrest e he
            · rw [if_neg h5] at he
              rcases List.mem_cons.1 he with rfl | he2
              · exact ⟨_, rfl, fun hnil => h5 (by simp [hnil]), hws⟩
              rcases List.mem_cons.1 he2 with rfl | he3
              · rfl
              · exact ih true c hc hrest e he3
          · rw [if_neg h4] at he
            by_cases h5 : pdqSkip (pyStrip l) = true
            · rw [if_pos h5] at he
              exact ih st c hc hrest e he
            · rw [if_neg h5] at he
              by_cases h6 : (!(pyStrip l).isEmpty && decide (3 < (pyStrip l).length)) = true
              · rw [if_pos h6] at he
                rcases List.mem_cons.1 he with rfl | he2
                · exact ⟨nlFree_pyStrip hl, by simpa using h5, by simpa using h4,
                    by simpa using h3⟩
                · exact ih true c hc hrest e he2
              · rw [if_neg h6] at he
                exact ih st c hc hrest e he

theorem imp_go_ok (fuel : Nat) :
    ∀ st c ls, 1 ≤ c → (∀ l ∈ ls, '\n' ∉ l) →
      ∀ e ∈ imp_go fuel st c ls, entryOKimp e := by
  induction fuel with
  | zero => intro st c ls hc hnl e he; cases he
  | succ f ih =>
    intro st c ls hc hnl e he
    cases ls with
    | nil => cases he
    | cons l rest =>
      simp only [imp_go] at he
      have hl : '\n' ∉ l := hnl l (List.mem_cons_self _ _)
      have hrest : ∀ x ∈ rest, '\n' ∉ x := fun x hx => hnl x (List.mem_cons_of_mem _ hx)
      by_cases h1 : ((pyStrip l).isEmpty && !st) = true
      · rw [if_pos h1] at he
        exact ih st c rest hc hrest e he
      · rw [if_neg h1] at he
        by_cases h2 : impIsTopic (pyStrip l) = true
        · rw [if_pos h2] at he
          rcases List.mem_cons.1 he with rfl | he2
          · exact ⟨pyStrip l, rfl, nlFree_pyStrip hl⟩
          · exact ih true 1 rest (by omega) hrest e he2
        · rw [if_neg h2] at he
          by_cases h3 : pfxL (str "Q:") (pyStrip l) = true
          · rw [if_pos h3] at he
            rcases hscan : imp_scan rest with ⟨o, rest2⟩
            have hr2 : ∀ x ∈ rest2, '\n' ∉ x := by
              intro x hx
              have hsub := imp_scan_suffix rest
              rw [hscan] at hsub
              exact hrest x (hsub.sublist.subset hx)
            have hq : entryOKimp
                ⟨.question c, natStr c ++ str ". Q: " ++ pyStrip ((pyStrip l).drop 2)⟩ :=
              ⟨hc, pyStrip ((pyStrip l).drop 2), rfl,
                nlFree_pyStrip (nlFree_drop 2 (nlFree_pyStrip hl))⟩
            cases o with
            | none =>
              simp only [hscan] at he
              rcases List.mem_cons.1 he with rfl | he2
              · exact hq
              · exact ih true (c + 1) rest2 (by omega) hr2 e he2
            | some t =>
              simp only [hscan] at he
              have ht : wsNormB t = true := imp_scan_some (by rw [hscan])
              by_cases h4 : t.isEmpty = true
              · rw [if_pos h4] at he
                rcases List.mem_cons.1 he with rfl | he2
                · exact hq
                · exact ih true (c + 1) rest2 (by omega) hr2 e he2
              · rw [if_neg h4] at he
                rcases List.mem_cons.1 he with rfl | he2
                · exact hq
                rcases List.mem_cons.1 he2 with rfl | he3
                · exact ⟨t, rfl, fun hnil => h4 (by simp [hnil]), ht⟩
                rcases List.mem_cons.1 he3 with rfl | he4
                · rfl
                · exact ih true (c + 1) rest2 (by omega) hr2 e he4
          · rw [if_neg h3] at he
            exact ih st c rest hc hrest e he

/-! ### Per-topic question-number segments (for the counter-reset claims) -/

theorem segQ_cons_blank (txt : List Char) (es : List Entry) :
    segQ (⟨.blank, txt⟩ :: es) = segQ es := rfl

theorem segQ_cons_answer (txt : List Char) (es : List Entry) :
    segQ (⟨.answer, txt⟩ :: es) = segQ es := rfl

theorem segQ_cons_pass (txt : List Char) (es : List Entry) :
    segQ (⟨.pass, txt⟩ :: es) = segQ es := rfl

theorem segQ_cons_topic (txt : List Char) (es : List Entry) :
    segQ (⟨.topic, txt⟩ :: es) = ([], (segQ es).1 :: (segQ es).2) := rfl

theorem segQ_cons_question (n : Nat) (txt : List Char) (es : List Entry) :
    segQ (⟨.question n, txt⟩ :: es) = (n :: (segQ es).1, (segQ es).2) := rfl

theorem goodSegs_qcons {es : List Entry} {c : Nat} {txt : List Char}
    (h : goodSegs (segQ es) (c + 1)) :
    goodSegs (segQ (⟨.question c, txt⟩ :: es)) c := by
  constructor
  · rw [segQ_cons_question]
    show c :: (segQ es).1 = List.range' c (c :: (segQ es).1).length
    rw [List.length_cons, List.range'_succ, ← h.1]
  · rw [segQ_cons_question]
    exact h.2

theorem goodSegs_tcons {es : List Entry} {c : Nat} {txt : List Char}
    (h : goodSegs (segQ es) 1) :
    goodSegs (segQ (⟨.topic, txt⟩ :: es)) c := by
  constructor
  · rw [segQ_cons_topic]
    rfl
  · rw [segQ_cons_topic]
    intro sg hsg
    rcases List.mem_cons.1 hsg with rfl | h2
    · exact h.1
    · exact h.2 sg h2

theorem cdf_go_segQ (fuel : Nat) :
    ∀ st c ls, goodSegs (segQ (cdf_go fuel st c ls)) c := by
  induction fuel with
  | zero =>
    intro st c ls
    exact ⟨rfl, by intro sg h; cases h⟩
  | succ f ih =>
    intro st c ls
    cases ls with
    | nil => exact ⟨rfl, by intro sg h; cases h⟩
    | cons l rest =>
      simp only [cdf_go]
      by_cases h1 : ((pyStrip l).isEmpty && !st) = true
      · rw [if_pos h1]; exact ih st c rest
      · rw [if_neg h1]
        by_cases h2 : cdfIsTopic (pyStrip l) = true
        · rw [if_pos h2]
          exact goodSegs_tcons (ih true 1 rest)
        · rw [if_neg h2]
          by_cases h3 : pfxL (str "Q:") (pyStrip l) = true
          · rw [if_pos h3]
            rcases hscan : cdf_scan rest with ⟨o, rest2⟩
            cases o with
            | none => exact goodSegs_qcons (ih true (c + 1) rest2)
            | some t =>
              show goodSegs (segQ
                (⟨.question c, natStr c ++ str ". Q: " ++ pyStrip ((pyStrip l).drop 2)⟩ ::
                  if t.isEmpty = true then cdf_go f true (c + 1) rest2
                  else ⟨.answer, str "A: " ++ t⟩ :: ⟨.blank, []⟩ ::
                    cdf_go f true (c + 1) rest2)) c
              by_cases h4 : t.isEmpty = true
              · rw [if_pos h4]
                exact goodSegs_qcons (ih true (c + 1) rest2)
              · rw [if_neg h4]
                exact goodSegs_qcons (ih true (c + 1) rest2)
          · rw [if_neg h3]
            exact ih st c rest

theorem pdq_go_segQ :
    ∀ ls st c, goodSegs (segQ (pdq_go st c ls)) c := by
  intro ls
  induction ls with
  | nil => intro st c; exact ⟨rfl, by intro sg h; cases h⟩
  | cons l rest ih =>
    intro st c
    simp only [pdq_go]
    by_cases h1 : ((pyStrip l).isEmpty && !st) = true
    · rw [if_pos h1]; exact ih st c
    · rw [if_neg h1]
      by_cases h2 : pdqIsTopic (pyStrip l) = true
      · rw [if_pos h2]
        exact goodSegs_tcons (ih true 1)
      · rw [if_neg h2]
        by_cases h3 : pfxL (str "Q:") (pyStrip l) = true
        · rw [if_pos h3]
          exact goodSegs_qcons (ih true (c + 1))
        · rw [if_neg h3]
          by_cases h4 : pfxL (str "A:") (pyStrip l) = true
          · rw [if_pos h4]
            by_cases h5 : (pdqCleanAnswer (pyStrip ((pyStrip l).drop 2))).isEmpty = true
            · rw [if_pos h5]; exact ih st c
            · rw [if_neg h5]; exact ih true c
          · rw [if_neg h4]
            by_cases h5 : pdqSkip (pyStrip l) = true
            · rw [if_pos h5]; exact ih st c
            · rw [if_neg h5]
              by_cases h6 : (!(pyStrip l).isEmpty && decide (3 < (pyStrip l).length)) = true
              · rw [if_pos h6]; exact ih true c
              · rw [if_neg h6]; exact ih st c

/-! ### Counting document lines versus processed entries -/

theorem splitNl_cons_nl (u : List Char) : splitNl ('\n' :: u) = [] :: splitNl u := by
  simp only [splitNl]
  cases h : splitNl u with
  | nil => exact absurd h (splitNl_ne_nil u)
  | cons l ls => simp

theorem pfxL_cons_false {p c : Char} (ps l : List Char) (h : (p == c) = false) :
    pfxL (p :: ps) (c :: l) = false := by
  simp [pfxL, h]

theorem digit_ne_A {c : Char} (hc : c.isDigit = true) : (('A' : Char) == c) = false := by
  refine beq_eq_false_iff_ne.2 (fun he => ?_)
  rw [← he] at hc
  exact absurd hc (by decide)

theorem digit_ne_hash {c : Char} (hc : c.isDigit = true) : (('#' : Char) == c) = false := by
  refine beq_eq_false_iff_ne.2 (fun he => ?_)
  rw [← he] at hc
  exact absurd hc (by decide)

theorem topicEntryCount_cons (e : Entry) (es : List Entry) :
    topicEntryCount (e :: es) = topicEntryCount es + tTag e := by
  rcases e with ⟨tag, txt⟩
  cases tag <;> simp [topicEntryCount, List.countP_cons, tTag]

theorem entryOKcdf_question_facts {n : Nat} {t txt : List Char}
    (htxt : txt = natStr n ++ str ". Q: " ++ t) (hnl : '\n' ∉ t) : '\n' ∉ txt := by
  subst htxt
  intro hmem
  rcases List.mem_append.1 hmem with h1 | h1
  · rcases List.mem_append.1 h1 with h2 | h2
    · have := natStr_digits n '\n' h2
      exact absurd this (by decide)
    · exact absurd h2 (by decide)
  · exact hnl h1

theorem topic_split_facts {s : List Char} (hs : '\n' ∉ s) :
    isQLine (str "## " ++ s) = false ∧ pfxL (str "A:") (str "## " ++ s) = false ∧
      pfxL (str "## ") (str "## " ++ s) = true ∧ '\n' ∉ (str "## " ++ s) := by
  refine ⟨?_, ?_, pfxL_append _ _, ?_⟩
  · show isQLine ('#' :: (str "# " ++ s)) = false
    exact isQLine_nondigit_head _ (by decide)
  · show pfxL ('A' :: str ":") ('#' :: (str "# " ++ s)) = false
    exact pfxL_cons_false _ _ (by decide)
  · intro hmem
    rcases List.mem_append.1 hmem with h1 | h1
    · exact absurd h1 (by decide)
    · exact hs h1

theorem cSplitOK_of_cdf {e : Entry} (h : entryOKcdf e) : cSplitOK e := by
  rcases e with ⟨tag, txt⟩
  cases tag with
  | topic =>
    obtain ⟨s, htxt, hs⟩ := h
    have htxt2 : txt = '\n' :: (str "## " ++ s) := htxt
    obtain ⟨f1, f2, f3, f4⟩ := topic_split_facts hs
    refine ⟨str "## " ++ s, ?_, f1, f2, f3, ?_, ?_, ?_⟩
    · left
      show splitNl txt = _
      rw [htxt2, splitNl_cons_nl, splitNl_nlFree f4]
    · show isQLine txt = false
      rw [htxt2]; exact isQLine_nondigit_head _ (by decide)
    · show pfxL (str "A:") txt = false
      rw [htxt2]
      show pfxL ('A' :: str ":") ('\n' :: (str "## " ++ s)) = false
      exact pfxL_cons_false _ _ (by decide)
    · show pfxL (str "## ") txt = false
      rw [htxt2]
      show pfxL ('#' :: str "# ") ('\n' :: (str "## " ++ s)) = false
      exact pfxL_cons_false _ _ (by decide)
  | question n =>
    obtain ⟨hn, t, htxt, hnl⟩ := h
    exact entryOKcdf_question_facts htxt hnl
  | answer =>
    obtain ⟨t, htxt, hne, hws⟩ := h
    have htxt2 : txt = str "A: " ++ t := htxt
    show '\n' ∉ txt
    rw [htxt2]
    intro hmem
    rcases List.mem_append.1 hmem with h1 | h1
    · exact absurd h1 (by decide)
    · exact wsNormB_nlFree hws h1
  | blank =>
    show '\n' ∉ txt
    rw [show txt = [] from h]
    simp
  | pass => cases h

theorem cSplitOK_of_pdq {e : Entry} (h : entryOKpdq e) : cSplitOK e := by
  rcases e with ⟨tag, txt⟩
  cases tag with
  | topic =>
    obtain ⟨s, htxt, hs⟩ := h
    have htxt2 : txt = '\n' :: (str "## " ++ s ++ ['\n']) := htxt
    obtain ⟨f1, f2, f3, f4⟩ := topic_split_facts hs
    refine ⟨str "## " ++ s, ?_, f1, f2, f3, ?_, ?_, ?_⟩
    · right
      show splitNl txt = _
      rw [htxt2, splitNl_cons_nl,
        show str "## " ++ s ++ ['\n'] = (str "## " ++ s) ++ '\n' :: [] from rfl,
        splitNl_append, splitNl_nlFree f4]
      rfl
    · show isQLine txt = false
      rw [htxt2]; exact isQLine_nondigit_head _ (by decide)
    · show pfxL (str "A:") txt = false
      rw [htxt2]
      show pfxL ('A' :: str ":") ('\n' :: (str "## " ++ s ++ ['\n'])) = false
      exact pfxL_cons_false _ _ (by decide)
    · show pfxL (str "## ") txt = false
      rw [htxt2]
      show pfxL ('#' :: str "# ") ('\n' :: (str "## " ++ s ++ ['\n'])) = false
      exact pfxL_cons_false _ _ (by decide)
  | question n =>
    obtain ⟨hn, t, htxt, hnl⟩ := h
    exact entryOKcdf_question_facts htxt hnl
  | answer =>
    obtain ⟨t, htxt, hne, hws⟩ := h
    have htxt2 : txt = str "A: " ++ t := htxt
    show '\n' ∉ txt
    rw [htxt2]
    intro hmem
    rcases List.mem_append.1 hmem with h1 | h1
    · exact absurd h1 (by decide)
    · exact wsNormB_nlFree hws h1
  | blank =>
    show '\n' ∉ txt
    rw [show txt = [] from h]
    simp
  | pass => exact h.1

theorem entry_counts {e : Entry} (hok : cSplitOK e) :
    (splitNl e.txt).countP isQLine = (if isQLine e.txt then 1 else 0)
  ∧ (splitNl e.txt).countP (fun l => pfxL (str "A:") l)
      = (if pfxL (str "A:") e.txt then 1 else 0)
  ∧ (splitNl e.txt).countP (fun l => pfxL (str "## ") l)
      = (if pfxL (str "## ") e.txt then 1 else 0) + tTag e := by
  rcases e with ⟨tag, txt⟩
  cases tag with
  | topic =>
    obtain ⟨u, hsplit, hq, ha, ht, hq2, ha2, ht2⟩ := hok
    have hqnil : isQLine ([] : List Char) = false := rfl
    have hanil : pfxL (str "A:") ([] : List Char) = false := rfl
    have htnil : pfxL (str "## ") ([] : List Char) = false := rfl
    rcases hsplit with hsp | hsp <;>
      simp [hsp, List.countP_cons, hq, ha, ht, hq2, ha2, ht2, hqnil, hanil, htnil, tTag]
  | question n =>
    have hnl : '\n' ∉ txt := hok
    simp [splitNl_nlFree hnl, List.countP_cons, tTag]
  | answer =>
    have hnl : '\n' ∉ txt := hok
    simp [splitNl_nlFree hnl, List.countP_cons, tTag]
  | blank =>
    have hnl : '\n' ∉ txt := hok
    simp [splitNl_nlFree hnl, List.countP_cons, tTag]
  | pass =>
    have hnl : '\n' ∉ txt := hok
    simp [splitNl_nlFree hnl, List.countP_cons, tTag]

theorem counts_core :
    ∀ (es : List Entry), (∀ e ∈ es, cSplitOK e) →
      (docLines es).countP isQLine = (entryTexts es).countP isQLine
    ∧ (docLines es).countP (fun l => pfxL (str "A:") l)
        = (entryTexts es).countP (fun l => pfxL (str "A:") l)
    ∧ (docLines es).countP (fun l => pfxL (str "## ") l)
        = (entryTexts es).countP (fun l => pfxL (str "## ") l) + topicEntryCount es := by
  intro es
  induction es with
  | nil =>
    intro _
    refine ⟨rfl, rfl, rfl⟩
  | cons e es ih =>
    intro hok
    have he := entry_counts (hok e (List.mem_cons_self _ _))
    have hes := fun x hx => hok x (List.mem_cons_of_mem _ hx)
    cases es with
    | nil =>
      rw [docLines_single]
      show _ ∧ _ ∧ _
      refine ⟨?_, ?_, ?_⟩
      · rw [he.1]
        simp [entryTexts, List.countP_cons]
      · rw [he.2.1]
        simp [entryTexts, List.countP_cons]
      · rw [he.2.2, topicEntryCount_cons]
        have h0 : topicEntryCount [] = 0 := rfl
        rw [h0]
        simp [entryTexts, List.countP_cons]
    | cons f fs =>
      have ihr := ih hes
      rw [docLines_cons e (by simp)]
      refine ⟨?_, ?_, ?_⟩
      · rw [List.countP_append, he.1, ihr.1]
        simp [entryTexts, List.countP_cons]
        omega
      · rw [List.countP_append, he.2.1, ihr.2.1]
        simp [entryTexts, List.countP_cons]
        omega
      · rw [List.countP_append, he.2.2, ihr.2.2]
        simp only [entryTexts, List.map_cons, List.countP_cons, topicEntryCount_cons]
        omega

/-! ### Reorder-script lemmas -/

theorem qLineNums_blocks : ∀ (l : List QA) (i : Nat),
    qLineNums (reorderBlocks i l) = List.range' i l.length := by
  intro l
  induction l with
  | nil => intro i; rfl
  | cons p ps ih =>
    intro i
    have hq : isQLine (natStr i ++ str ". Q: " ++ p.question) = true := isQLine_qentry i _
    have hnum := qnum_of_qentry i p.question
    have ha : isQLine (str "A: " ++ p.answer) = false := by
      show isQLine ('A' :: (str ": " ++ p.answer)) = false
      exact isQLine_nondigit_head _ (by decide)
    simp only [reorderBlocks, qLineNums, List.filterMap_cons, hq, if_true, ha, if_false,
      isQLine_nil, hnum]
    rw [List.length_cons, List.range'_succ]
    congr 1
    exact ih (i + 1)

theorem qLineNums_length (ls : List (List Char)) :
    (qLineNums ls).length = ls.countP isQLine := by
  induction ls with
  | nil => rfl
  | cons l rest ih =>
    simp only [qLineNums, List.filterMap_cons, List.countP_cons]
    by_cases h : isQLine l = true
    · simp only [h, if_true]
      simp only [qLineNums] at ih
      simp [ih]
    · simp only [h, if_false]
      simp only [qLineNums] at ih
      simp [ih, h]

theorem pairwise_of_mem_prop {R : QA → QA → Prop} {pq : QA → Prop} :
    ∀ (l : List QA), (∀ x ∈ l, pq x) → (∀ x y, pq x → pq y → R x y) → l.Pairwise R := by
  intro l
  induction l with
  | nil => intro _ _; exact List.Pairwise.nil
  | cons a as ih =>
    intro h hr
    refine List.Pairwise.cons ?_ (ih (fun x hx => h x (List.mem_cons_of_mem _ hx)) hr)
    intro b hb
    exact hr a b (h a (List.mem_cons_self _ _)) (h b (List.mem_cons_of_mem _ hb))

theorem qaLE_trans : ∀ a b c : QA, qaLE a b → qaLE b c → qaLE a c := by
  intro a b c hab hbc
  simp only [qaLE, decide_eq_true_eq] at hab hbc ⊢
  omega

theorem qaLE_total : ∀ a b : QA, qaLE a b || qaLE b a := by
  intro a b
  simp only [qaLE]
  rcases Nat.le_total a.orig b.orig with h | h <;> simp [h]

theorem reorderParse_answer_ne {qa : List Char} {p : QA} (h : reorderParse qa = some p) :
    p.answer ≠ [] := by
  simp only [reorderParse] at h
  cases hm : reMatch flN reorderHeadRE qa with
  | none => rw [hm] at h; cases h
  | some r =>
    rw [hm] at h
    rcases r with ⟨e, caps⟩
    cases hg1 : capGet caps 1 qa with
    | none =>
      simp only [hg1] at h
      exact Option.noConfusion h
    | some g1 =>
      cases hg2 : capGet caps 2 qa with
      | none =>
        simp only [hg1, hg2] at h
        exact Option.noConfusion h
      | some g2 =>
        simp only [hg1, hg2] at h
        by_cases hemp : (reorderAnswer qa).isEmpty = true
        · rw [if_pos hemp] at h; cases h
        · rw [if_neg hemp] at h
          rw [Option.some.injEq] at h
          subst h
          intro hnil
          have hnil2 : reorderAnswer qa = [] := hnil
          exact hemp (by simp [hnil2])

theorem reorderSorted_answers_ne {content : List Char} :
    ∀ p ∈ reorderSorted content, p.answer ≠ [] := by
  intro p hp
  rw [reorderSorted, List.mem_mergeSort] at hp
  obtain ⟨qa, _, hparse⟩ := List.mem_filterMap.1 hp
  exact reorderParse_answer_ne hparse

theorem reorderSorted_perm (content : List Char) :
    (reorderSorted content).Perm (reorderPairs content) :=
  List.mergeSort_perm _ _

theorem reorderSorted_sorted (content : List Char) :
    ((reorderSorted content).map QA.orig).Pairwise (fun a b => a ≤ b) := by
  have hs : (reorderSorted content).Pairwise (fun a b => qaLE a b = true) :=
    List.sorted_mergeSort qaLE_trans qaLE_total (reorderPairs content)
  rw [List.pairwise_map]
  refine hs.imp ?_
  intro a b hab
  simpa [qaLE] using hab

theorem reorder_filter_stable (content : List Char) (n : Nat) :
    (reorderSorted content).filter (fun p => p.orig == n)
      = (reorderPairs content).filter (fun p => p.orig == n) := by
  set ps := reorderPairs content with hps
  set B := ps.filter (fun p => p.orig == n) with hB
  have hBsub : B <+ ps := List.filter_sublist ps
  have hBall : ∀ x ∈ B, x.orig = n := by
    intro x hx
    have := (List.mem_filter.1 hx).2
    simpa using this
  have hBpair : B.Pairwise (fun a b => qaLE a b = true) := by
    refine pairwise_of_mem_prop B hBall ?_
    intro x y hx hy
    simp [qaLE, hx, hy]
  have hBsorted : B <+ reorderSorted content :=
    List.sublist_mergeSort qaLE_trans qaLE_total hBpair hBsub
  have hBfil : B.filter (fun p => p.orig == n) = B := by
    rw [List.filter_eq_self]
    intro a ha
    simp [hBall a ha]
  have hsub2 : B <+ (reorderSorted content).filter (fun p => p.orig == n) := by
    rw [← hBfil]
    exact hBsorted.filter _
  have hlen : ((reorderSorted content).filter (fun p => p.orig == n)).length = B.length := by
    rw [← List.countP_eq_length_filter, ← List.countP_eq_length_filter,
      (reorderSorted_perm content).countP_eq]
  exact (hsub2.eq_of_length hlen.symm).symm

theorem reorder_c3_core {content : List Char}
    (h : (reorderPairs content).map QA.orig = [5, 2, 2, 9]) :
    (reorderSorted content).map QA.orig = [2, 2, 5, 9]
  ∧ qLineNums (reorder_questions content) = [1, 2, 3, 4]
  ∧ (reorder_questions content).countP isQLine = 4 := by
  have hperm : ((reorderSorted content).map QA.orig).Perm [5, 2, 2, 9] := by
    rw [← h]
    exact (reorderSorted_perm content).map QA.orig
  have hperm2 : ((reorderSorted content).map QA.orig).Perm [2, 2, 5, 9] :=
    hperm.trans (by decide)
  have hsorted := reorderSorted_sorted content
  have htgt : ([2, 2, 5, 9] : List Nat).Pairwise (fun a b => a ≤ b) := by decide
  have heq : (reorderSorted content).map QA.orig = [2, 2, 5, 9] :=
    List.eq_of_perm_of_sorted hperm2 hsorted htgt
  have hlen : (reorderSorted content).length = 4 := by
    have := congrArg List.length heq
    simpa using this
  have hq : qLineNums (reorder_questions content) = [1, 2, 3, 4] := by
    rw [reorder_questions, qLineNums_blocks, hlen]
    rfl
  refine ⟨heq, hq, ?_⟩
  have := qLineNums_length (reorder_questions content)
  rw [hq] at this
  simpa using this.symm

/-! ### Fluff-removal no-match lemmas -/

theorem reSub_nomatch {fl : RFlags} {re : RE} {s : List Char}
    (h : reSearch fl re s = none) : reSub fl re [] s = s := by
  have h2 : reFindFrom fl re s 0 = none := h
  simp only [reSub, reSubGo, h2, List.drop_zero]

theorem subAll_nomatch {fl : RFlags} {pats : List RE} {s : List Char}
    (h : ∀ p ∈ pats, reSearch fl p s = none) : subAll fl pats s = s := by
  induction pats with
  | nil => rfl
  | cons p ps ih =>
    have h1 := reSub_nomatch (h p (List.mem_cons_self _ _))
    show List.foldl (fun acc q => reSub fl q [] acc) (reSub fl p [] s) ps = s
    rw [h1]
    exact ih (fun q hq => h q (List.mem_cons_of_mem _ hq))

/-! ### Content-level entry facts -/

theorem clean_db_final_ok {content : List Char} :
    ∀ e ∈ clean_db_final content, entryOKcdf e := by
  intro e he
  exact cdf_go_ok _ false 1 _ (le_refl 1) (fun l hl => mem_splitNl_nlFree l hl) e he

theorem process_db_qa_ok {content : List Char} :
    ∀ e ∈ process_db_qa content, entryOKpdq e := by
  intro e he
  exact pdq_go_ok _ false 1 (le_refl 1) (fun l hl => mem_splitNl_nlFree l hl) e he

theorem process_db_qa_improved_ok {content : List Char} :
    ∀ e ∈ process_db_qa_improved content, entryOKimp e := by
  intro e he
  exact imp_go_ok _ false 1 _ (le_refl 1) (fun l hl => mem_splitNl_nlFree l hl) e he

/-- Every line of the document written by `clean_db_final` is empty, a
`## ` heading line, a constructed question line, or a constructed
answer line with normalised text. -/
theorem cdf_doc_cases {content l : List Char} (h : l ∈ clean_db_final_doc content) :
    l = [] ∨ (∃ s, l = str "## " ++ s) ∨ (∃ n t, l = natStr n ++ str ". Q: " ++ t)
    ∨ (∃ t, l = str "A: " ++ t ∧ t ≠ [] ∧ wsNormB t = true) := by
  rcases mem_docLines h with rfl | ⟨e, hee, hl⟩
  · exact Or.inl rfl
  have hok := clean_db_final_ok e hee
  rcases e with ⟨tag, txt⟩
  cases tag with
  | topic =>
    obtain ⟨s, htxt, hs⟩ := hok
    have htxt2 : txt = '\n' :: (str "## " ++ s) := htxt
    obtain ⟨_, _, _, f4⟩ := topic_split_facts hs
    rw [htxt2, splitNl_cons_nl, splitNl_nlFree f4] at hl
    rcases List.mem_cons.1 hl with rfl | hl2
    · exact Or.inl rfl
    rcases List.mem_cons.1 hl2 with rfl | hl3
    · exact Or.inr (Or.inl ⟨s, rfl⟩)
    · cases hl3
  | question n =>
    obtain ⟨hn, t, htxt, hnl⟩ := hok
    have htxt2 : txt = natStr n ++ str ". Q: " ++ t := htxt
    have hnltxt : '\n' ∉ txt := entryOKcdf_question_facts htxt2 hnl
    rw [show (⟨Tag.question n, txt⟩ : Entry).txt = txt from rfl, splitNl_nlFree hnltxt] at hl
    rcases List.mem_cons.1 hl with rfl | hl2
    · exact Or.inr (Or.inr (Or.inl ⟨n, t, htxt2⟩))
    · cases hl2
  | answer =>
    obtain ⟨t, htxt, hne, hws⟩ := hok
    have htxt2 : txt = str "A: " ++ t := htxt
    have hnltxt : '\n' ∉ txt := by
      rw [htxt2]
      intro hmem
      rcases List.mem_append.1 hmem with h1 | h1
      · exact absurd h1 (by decide)
      · exact wsNormB_nlFree hws h1
    rw [show (⟨Tag.answer, txt⟩ : Entry).txt = txt from rfl, splitNl_nlFree hnltxt] at hl
    rcases List.mem_cons.1 hl with rfl | hl2
    · exact Or.inr (Or.inr (Or.inr ⟨t, htxt2, hne, hws⟩))
    · cases hl2
  | blank =>
    have htxt2 : txt = [] := hok
    rw [show (⟨Tag.blank, txt⟩ : Entry).txt = txt from rfl, htxt2] at hl
    simp only [splitNl] at hl
    rcases List.mem_cons.1 hl with rfl | hl2
    · exact Or.inl rfl
    · cases hl2
  | pass => cases hok

/-- Every line of the document written by `process_db_qa` is empty, a
`## ` heading line, a constructed question line, a constructed answer
line, or a passed-through line on which the skip patterns fail. -/
theorem pdq_doc_cases {content l : List Char} (h : l ∈ process_db_qa_doc content) :
    l = [] ∨ (∃ s, l = str "## " ++ s) ∨ (∃ n t, l = natStr n ++ str ". Q: " ++ t)
    ∨ (∃ t, l = str "A: " ++ t ∧ t ≠ [] ∧ wsNormB t = true)
    ∨ (pdqSkip l = false ∧ pfxL (str "A:") l = false ∧ pfxL (str "Q:") l = false) := by
  rcases mem_docLines h with rfl | ⟨e, hee, hl⟩
  · exact Or.inl rfl
  have hok := process_db_qa_ok e hee
  rcases e with ⟨tag, txt⟩
  cases tag with
  | topic =>
    obtain ⟨s, htxt, hs⟩ := hok
    have htxt2 : txt = '\n' :: (str "## " ++ s ++ ['\n']) := htxt
    obtain ⟨_, _, _, f4⟩ := topic_split_facts hs
    rw [htxt2, splitNl_cons_nl,
      show str "## " ++ s ++ ['\n'] = (str "## " ++ s) ++ '\n' :: [] from rfl,
      splitNl_append, splitNl_nlFree f4] at hl
    rcases List.mem_cons.1 hl with rfl | hl2
    · exact Or.inl rfl
    rcases List.mem_cons.1 hl2 with rfl | hl3
    · exact Or.inr (Or.inl ⟨s, rfl⟩)
    rcases List.mem_cons.1 hl3 with rfl | hl4
    · exact Or.inl rfl
    · cases hl4
  | question n =>
    obtain ⟨hn, t, htxt, hnl⟩ := hok
    have htxt2 : txt = natStr n ++ str ". Q: " ++ t := htxt
    have hnltxt : '\n' ∉ txt := entryOKcdf_question_facts htxt2 hnl
    rw [show (⟨Tag.question n, txt⟩ : Entry).txt = txt from rfl, splitNl_nlFree hnltxt] at hl
    rcases List.mem_cons.1 hl with rfl | hl2
    · exact Or.inr (Or.inr (Or.inl ⟨n, t, htxt2⟩))
    · cases hl2
  | answer =>
    obtain ⟨t, htxt, hne, hws⟩ := hok
    have htxt2 : txt = str "A: " ++ t := htxt
    have hnltxt : '\n' ∉ txt := by
      rw [htxt2]
      intro hmem
      rcases List.mem_append.1 hmem with h1 | h1
      · exact absurd h1 (by decide)
      · exact wsNormB_nlFree hws h1
    rw [show (⟨Tag.answer, txt⟩ : Entry).txt = txt from rfl, splitNl_nlFree hnltxt] at hl
    rcases List.mem_cons.1 hl with rfl | hl2
    · exact Or.inr (Or.inr (Or.inr (Or.inl ⟨t, htxt2, hne, hws⟩)))
    · cases hl2
  | blank =>
    have htxt2 : txt = [] := hok
    rw [show (⟨Tag.blank, txt⟩ : Entry).txt = txt from rfl, htxt2] at hl
    simp only [splitNl] at hl
    rcases List.mem_cons.1 hl with rfl | hl2
    · exact Or.inl rfl
    · cases hl2
  | pass =>
    obtain ⟨hnl, hskip, ha, hq⟩ := hok
    rw [show (⟨Tag.pass, txt⟩ : Entry).txt = txt from rfl, splitNl_nlFree hnl] at hl
    rcases List.mem_cons.1 hl with rfl | hl2
    · exact Or.inr (Or.inr (Or.inr (Or.inr ⟨hskip, ha, hq⟩)))
    · cases hl2

theorem pfxA_qentry_false (n : Nat) (t : List Char) :
    pfxL (str "A:") (natStr n ++ str ". Q: " ++ t) = false := by
  obtain ⟨c, r, hcr, hdig⟩ := natStr_head_digit n
  rw [hcr]
  show pfxL ('A' :: str ":") (c :: (r ++ str ". Q: " ++ t)) = false
  exact pfxL_cons_false _ _ (digit_ne_A hdig)

theorem cdf_doc_answer_ws {content l : List Char} (h : l ∈ clean_db_final_doc content)
    (ha : pfxL (str "A:") l = true) : wsNormB (l.drop 3) = true := by
  rcases cdf_doc_cases h with rfl | ⟨s, rfl⟩ | ⟨n, t, rfl⟩ | ⟨t, rfl, hne, hws⟩
  · exact Bool.noConfusion ha
  · have hfa : pfxL (str "A:") (str "## " ++ s) = false := by
      show pfxL ('A' :: str ":") ('#' :: (str "# " ++ s)) = false
      exact pfxL_cons_false _ _ (by decide)
    rw [hfa] at ha
    exact Bool.noConfusion ha
  · rw [pfxA_qentry_false n t] at ha
    exact Bool.noConfusion ha
  · show wsNormB t = true
    exact hws

theorem pdq_doc_answer_ws {content l : List Char} (h : l ∈ process_db_qa_doc content)
    (ha : pfxL (str "A:") l = true) : wsNormB (l.drop 3) = true := by
  rcases pdq_doc_cases h with rfl | ⟨s, rfl⟩ | ⟨n, t, rfl⟩ | ⟨t, rfl, hne, hws⟩ | ⟨_, hfa, _⟩
  · exact Bool.noConfusion ha
  · have hfa : pfxL (str "A:") (str "## " ++ s) = false := by
      show pfxL ('A' :: str ":") ('#' :: (str "# " ++ s)) = false
      exact pfxL_cons_false _ _ (by decide)
    rw [hfa] at ha
    exact Bool.noConfusion ha
  · rw [pfxA_qentry_false n t] at ha
    exact Bool.noConfusion ha
  · show wsNormB t = true
    exact hws
  · rw [hfa] at ha
    exact Bool.noConfusion ha

theorem pdq_no_phrase (content : List Char) :
    str "Do you want me to continue?" ∈ process_db_qa_doc content → False := by
  intro h
  rcases pdq_doc_cases h with h0 | ⟨s, hs⟩ | ⟨n, t, hq⟩ | ⟨t, ha, _, _⟩ | ⟨hskip, _, _⟩
  · exact absurd h0 (by decide)
  · have h1 : (str "Do you want me to continue?").head? = some 'D' := rfl
    rw [hs] at h1
    have h2 : some '#' = some 'D' := h1
    exact absurd h2 (by decide)
  · have h1 : (str "Do you want me to continue?").head? = some 'D' := rfl
    rw [hq] at h1
    obtain ⟨c, r, hcr, hdig⟩ := natStr_head_digit n
    rw [hcr] at h1
    have h2 : some c = some 'D' := h1
    rw [Option.some.injEq] at h2
    rw [h2] at hdig
    exact absurd hdig (by decide)
  · have h1 : (str "Do you want me to continue?").head? = some 'D' := rfl
    rw [ha] at h1
    have h2 : some 'A' = some 'D' := h1
    exact absurd h2 (by decide)
  · have htrue : pdqSkip (str "Do you want me to continue?") = true := by decide
    rw [htrue] at hskip
    exact Bool.noConfusion hskip

/-! ### Claim theorems -/

/-- C1 (counterexample): on the one-line input `Q:`, all three cleaning
scripts emit the question line `1. Q: ` whose text after the `Q: `
marker is empty, so the claim that the emitted text is always non-empty
fails. -/
theorem C1_counterexample :
    clean_db_final (str "Q:") = [⟨.question 1, str "1. Q: "⟩]
  ∧ process_db_qa (str "Q:") = [⟨.question 1, str "1. Q: "⟩]
  ∧ process_db_qa_improved (str "Q:") = [⟨.question 1, str "1. Q: "⟩]
  ∧ str "1. Q: " = natStr 1 ++ str ". Q: " ++ ([] : List Char) := by
  refine ⟨by decide, by decide, by decide, by decide⟩

/-- C1 (amended): for every input, every question line emitted by the
question branch of `clean_db_final`, `process_db_qa` or
`process_db_qa_improved` has the form `<positive integer>. Q: <text>`,
where the text may be empty (it is empty exactly when the source line
is a bare `Q:` marker). -/
theorem C1_amended_thm : ∀ content : List Char,
    (∀ e ∈ clean_db_final content, ∀ n, e.tag = .question n →
      1 ≤ n ∧ ∃ t, e.txt = natStr n ++ str ". Q: " ++ t)
  ∧ (∀ e ∈ process_db_qa content, ∀ n, e.tag = .question n →
      1 ≤ n ∧ ∃ t, e.txt = natStr n ++ str ". Q: " ++ t)
  ∧ (∀ e ∈ process_db_qa_improved content, ∀ n, e.tag = .question n →
      1 ≤ n ∧ ∃ t, e.txt = natStr n ++ str ". Q: " ++ t) := by
  intro content
  refine ⟨?_, ?_, ?_⟩
  · intro e he n htag
    have hok := clean_db_final_ok e he
    rcases e with ⟨tag, txt⟩
    have htag2 : tag = .question n := htag
    subst htag2
    obtain ⟨hn, t, htxt, _⟩ := hok
    exact ⟨hn, t, htxt⟩
  · intro e he n htag
    have hok := process_db_qa_ok e he
    rcases e with ⟨tag, txt⟩
    have htag2 : tag = .question n := htag
    subst htag2
    obtain ⟨hn, t, htxt, _⟩ := hok
    exact ⟨hn, t, htxt⟩
  · intro e he n htag
    have hok := process_db_qa_improved_ok e he
    rcases e with ⟨tag, txt⟩
    have htag2 : tag = .question n := htag
    subst htag2
    obtain ⟨hn, t, htxt, _⟩ := hok
    exact ⟨hn, t, htxt⟩

/-- C1 (witness): the amended statement applied to the concrete input
`Q:` for each of the three scripts. -/
theorem C1_amended_witness :
    ((⟨.question 1, str "1. Q: "⟩ : Entry) ∈ clean_db_final (str "Q:")
      ∧ 1 ≤ 1 ∧ ∃ t, (⟨.question 1, str "1. Q: "⟩ : Entry).txt = natStr 1 ++ str ". Q: " ++ t)
  ∧ ((⟨.question 1, str "1. Q: "⟩ : Entry) ∈ process_db_qa (str "Q:")
      ∧ 1 ≤ 1 ∧ ∃ t, (⟨.question 1, str "1. Q: "⟩ : Entry).txt = natStr 1 ++ str ". Q: " ++ t)
  ∧ ((⟨.question 1, str "1. Q: "⟩ : Entry) ∈ process_db_qa_improved (str "Q:")
      ∧ 1 ≤ 1 ∧ ∃ t, (⟨.question 1, str "1. Q: "⟩ : Entry).txt = natStr 1 ++ str ". Q: " ++ t) := by
  refine ⟨⟨by decide, (C1_amended_thm (str "Q:")).1 _ (by decide) 1 rfl⟩,
    ⟨by decide, (C1_amended_thm (str "Q:")).2.1 _ (by decide) 1 rfl⟩,
    ⟨by decide, (C1_amended_thm (str "Q:")).2.2 _ (by decide) 1 rfl⟩⟩

/-- C2: for every input, within every topic scope of `clean_db_final`
and `process_db_qa` the emitted question numbers are exactly the
contiguous sequence `1..K` (`K` being the number of questions in that
scope): the numbers before the first topic heading form `1..K0`, and
each topic heading resets the counter so its scope's numbers again
start at 1. -/
theorem C2_thm : ∀ content : List Char,
    ((segQ (clean_db_final content)).1
        = List.range' 1 (segQ (clean_db_final content)).1.length
      ∧ ∀ sg ∈ (segQ (clean_db_final content)).2, sg = List.range' 1 sg.length)
  ∧ ((segQ (process_db_qa content)).1
        = List.range' 1 (segQ (process_db_qa content)).1.length
      ∧ ∀ sg ∈ (segQ (process_db_qa content)).2, sg = List.range' 1 sg.length) := by
  intro content
  exact ⟨⟨(cdf_go_segQ _ false 1 _).1, (cdf_go_segQ _ false 1 _).2⟩,
    ⟨(pdq_go_segQ _ false 1).1, (pdq_go_segQ _ false 1).2⟩⟩

/-- C2 (witness): on a concrete two-question topic, the segment of
question numbers under the topic heading is `[1, 2]`, which is
`range' 1 2`, for both scripts. -/
theorem C2_witness :
    ([1, 2] : List Nat) ∈
      (segQ (clean_db_final
        (str "1. Database Operations And Reliability\nQ: a\nA: b\nQ: c\nA: d"))).2
  ∧ ([1, 2] : List Nat) = List.range' 1 ([1, 2] : List Nat).length
  ∧ ([1, 2] : List Nat) ∈
      (segQ (process_db_qa
        (str "1. Database Operations And Reliability\nQ: a\nA: b\nQ: c\nA: d"))).2
  ∧ ([1, 2] : List Nat) = List.range' 1 ([1, 2] : List Nat).length := by
  refine ⟨by decide,
    (C2_thm (str "1. Database Operations And Reliability\nQ: a\nA: b\nQ: c\nA: d")).1.2
      [1, 2] (by decide),
    by decide,
    (C2_thm (str "1. Database Operations And Reliability\nQ: a\nA: b\nQ: c\nA: d")).2.2
      [1, 2] (by decide)⟩

/-- C3 (counterexample): on an input whose pairs carry the original
numbers `[5, 2, 2, 9]` with non-empty answers, `reorder_questions`
emits four question lines, not three. -/
theorem C3_counterexample :
    (reorderPairs (str "5. Q: a\nA: b\n2. Q: c\nA: d\n2. Q: e\nA: f\n9. Q: g\nA: h")).map
        QA.orig = [5, 2, 2, 9]
  ∧ (reorder_questions
      (str "5. Q: a\nA: b\n2. Q: c\nA: d\n2. Q: e\nA: f\n9. Q: g\nA: h")).countP isQLine
        = 4 := by
  refine ⟨by decide, (reorder_c3_core (by decide)).2.2⟩

/-- C3 (amended): for every input document whose parsed pairs carry
original numbers `[5, 2, 2, 9]` with non-empty extracted answers, the
reorder script emits exactly four pairs, numbered `1, 2, 3, 4`, in
ascending order of original number (`[2, 2, 5, 9]`); duplicates by
original number are not deduplicated. -/
theorem C3_amended_thm : ∀ content : List Char,
    (reorderPairs content).map QA.orig = [5, 2, 2, 9] →
      (reorderSorted content).map QA.orig = [2, 2, 5, 9]
    ∧ qLineNums (reorder_questions content) = [1, 2, 3, 4]
    ∧ (reorder_questions content).countP isQLine = 4 := by
  intro content h
  exact reorder_c3_core h

/-- C3 (witness): the amended statement applied to the concrete
`[5, 2, 2, 9]` document. -/
theorem C3_amended_witness :
    (reorderPairs (str "5. Q: a\nA: b\n2. Q: c\nA: d\n2. Q: e\nA: f\n9. Q: g\nA: h")).map
        QA.orig = [5, 2, 2, 9]
  ∧ qLineNums (reorder_questions
      (str "5. Q: a\nA: b\n2. Q: c\nA: d\n2. Q: e\nA: f\n9. Q: g\nA: h")) = [1, 2, 3, 4] := by
  refine ⟨by decide,
    (C3_amended_thm (str "5. Q: a\nA: b\n2. Q: c\nA: d\n2. Q: e\nA: f\n9. Q: g\nA: h")
      (by decide)).2.1⟩

/-- C4: for every input document, `reorder_questions` sorts the parsed
pairs by original numeric label in ascending order (the emitted
original labels are pairwise non-decreasing and a permutation of the
parsed pairs), numbers the output contiguously `1..N`, and emits no
pair whose extracted answer text is empty. -/
theorem C4_thm : ∀ content : List Char,
    qLineNums (reorder_questions content)
        = List.range' 1 (reorderSorted content).length
  ∧ ((reorderSorted content).map QA.orig).Pairwise (fun a b => a ≤ b)
  ∧ (reorderSorted content).Perm (reorderPairs content)
  ∧ (reorderSorted content).countP (fun p => p.answer == []) = 0 := by
  intro content
  refine ⟨qLineNums_blocks _ 1, reorderSorted_sorted content, reorderSorted_perm content, ?_⟩
  rw [List.countP_eq_zero]
  intro p hp hbe
  exact reorderSorted_answers_ne p hp (by simpa using hbe)

/-- C5 (counterexample): the input `a..b` matches none of the
`simple_clean` filler patterns, yet the cleaning stage turns it into
`a.b`: the change survives whitespace collapsing on both sides, so the
output is not the input modulo whitespace collapsing. -/
theorem C5_counterexample :
    scFluffPats.all (fun p => (reSearch flIS p (str "a..b")).isNone) = true
  ∧ simple_clean (str "a..b") = str "a.b"
  ∧ collapseWS (str "a..b") = str "a..b"
  ∧ collapseWS (str "a.b") = str "a.b"
  ∧ (str "a.b" == str "a..b") = false := by
  refine ⟨by decide, by decide, by decide, by decide, by decide⟩

/-- C5 (amended): on any text in which no filler pattern matches, the
`clean_db_final` fluff stage returns the text exactly unchanged, and
the `simple_clean` stage returns it changed only by its two final
cleanup substitutions, which collapse space runs and period runs. -/
theorem C5_amended_thm : ∀ content : List Char,
    ((∀ p ∈ cdfFluffPats, reSearch flIS p content = none) → cdf_fluff content = content)
  ∧ ((∀ p ∈ scFluffPats, reSearch flIS p content = none) →
      simple_clean content = collapsePeriodRuns (collapseSpaceRuns content)) := by
  intro content
  constructor
  · intro h
    exact subAll_nomatch h
  · intro h
    show collapsePeriodRuns (collapseSpaceRuns (subAll flIS scFluffPats content)) = _
    rw [subAll_nomatch h]

/-- C5 (witness): the amended statement applied to the text
`hello world`, which matches none of the filler patterns. -/
theorem C5_amended_witness :
    cdf_fluff (str "hello world") = str "hello world"
  ∧ simple_clean (str "hello world")
      = collapsePeriodRuns (collapseSpaceRuns (str "hello world")) := by
  refine ⟨(C5_amended_thm (str "hello world")).1 (by decide),
    (C5_amended_thm (str "hello world")).2 (by decide)⟩

/-- C6: for every input, every answer line written by `clean_db_final`
or `process_db_qa` carries text (after the `A: ` marker) in which every
whitespace character is a single space and no two whitespace characters
are adjacent — in particular no tabs or newlines. -/
theorem C6_thm : ∀ content l : List Char,
    (l ∈ clean_db_final_doc content → pfxL (str "A:") l = true →
      wsNormB (l.drop 3) = true)
  ∧ (l ∈ process_db_qa_doc content → pfxL (str "A:") l = true →
      wsNormB (l.drop 3) = true) := by
  intro content l
  exact ⟨fun h ha => cdf_doc_answer_ws h ha, fun h ha => pdq_doc_answer_ws h ha⟩

/-- C6 (witness): concrete answer lines produced from an input with a
tab and a double space, for both scripts. -/
theorem C6_witness :
    str "A: b c" ∈ clean_db_final_doc (str "Q: a\nA: b\tc")
  ∧ wsNormB ((str "A: b c").drop 3) = true
  ∧ str "A: x y" ∈ process_db_qa_doc (str "A: x  y")
  ∧ wsNormB ((str "A: x y").drop 3) = true := by
  refine ⟨by decide,
    (C6_thm (str "Q: a\nA: b\tc") (str "A: b c")).1 (by decide) (by decide),
    by decide,
    (C6_thm (str "A: x  y") (str "A: x y")).2 (by decide) (by decide)⟩

/-- C7 (counterexample): on an input consisting of one topic heading,
`clean_db_final` prints the counts `(0, 0, 0)` although the written
document contains one `## ` topic-heading line: the printed topic count
misses the topic because the entry is stored with a leading newline. -/
theorem C7_counterexample :
    cdf_counts (str "1. Database Operations And Reliability") = (0, 0, 0)
  ∧ (clean_db_final_doc (str "1. Database Operations And Reliability")).countP
      (fun l => pfxL (str "## ") l) = 1 := by
  refine ⟨by decide, by decide⟩

set_option maxHeartbeats 2000000 in
/-- C7 (amended): for every input, the question and answer counts
printed by `clean_db_final` and `process_db_qa` equal the numbers of
such lines in the written document, but the printed topics count falls
short of the document's `## ` heading lines by exactly the number of
topic-branch entries (each stored with a leading newline and therefore
never counted). -/
theorem C7_amended_thm : ∀ content : List Char,
    ((clean_db_final_doc content).countP isQLine = (cdf_counts content).2.1
  ∧ (clean_db_final_doc content).countP (fun l => pfxL (str "A:") l)
      = (cdf_counts content).2.2
  ∧ (clean_db_final_doc content).countP (fun l => pfxL (str "## ") l)
      = (cdf_counts content).1 + topicEntryCount (clean_db_final content))
  ∧ ((process_db_qa_doc content).countP isQLine = (pdq_counts content).2.1
  ∧ (process_db_qa_doc content).countP (fun l => pfxL (str "A:") l)
      = (pdq_counts content).2.2
  ∧ (process_db_qa_doc content).countP (fun l => pfxL (str "## ") l)
      = (pdq_counts content).1 + topicEntryCount (process_db_qa content)) := by
  intro content
  constructor
  · have h := counts_core (clean_db_final content)
      (fun e he => cSplitOK_of_cdf (clean_db_final_ok e he))
    have e1 : (cdf_counts content).2.1
        = (entryTexts (clean_db_final content)).countP (fun t => isQLine t) := rfl
    have e2 : (cdf_counts content).2.2
        = (entryTexts (clean_db_final content)).countP (fun t => pfxL (str "A:") t) := rfl
    have e3 : (cdf_counts content).1
        = (entryTexts (clean_db_final content)).countP (fun t => pfxL (str "## ") t) := rfl
    rw [e1, e2, e3]
    exact ⟨h.1, h.2.1, h.2.2⟩
  · have h := counts_core (process_db_qa content)
      (fun e he => cSplitOK_of_pdq (process_db_qa_ok e he))
    have e1 : (pdq_counts content).2.1
        = (entryTexts (process_db_qa content)).countP (fun t => isQLine t) := rfl
    have e2 : (pdq_counts content).2.2
        = (entryTexts (process_db_qa content)).countP (fun t => pfxL (str "A:") t) := rfl
    have e3 : (pdq_counts content).1
        = (entryTexts (process_db_qa content)).countP (fun t => pfxL (str "## ") t) := rfl
    rw [e1, e2, e3]
    exact ⟨h.1, h.2.1, h.2.2⟩

/-- C8 (counterexample): `simple_clean` leaves the standalone filler
line `Do you want me to continue?` completely intact: the whole written
document is exactly that line. -/
theorem C8_counterexample :
    simple_clean (str "Do you want me to continue?") = str "Do you want me to continue?"
  ∧ simple_clean_doc (str "Do you want me to continue?")
      = [str "Do you want me to continue?"] := by
  refine ⟨by decide, by decide⟩

/-- C8 (amended): no line written by `process_db_qa` ever consists only
of the filler phrase `Do you want me to continue?` (the skip patterns
drop it), but `simple_clean` leaves the standalone phrase unchanged:
its patterns require surrounding context such as a leading space. -/
theorem C8_amended_thm :
    (∀ content : List Char,
      (process_db_qa_doc content).countP
        (fun l => l == str "Do you want me to continue?") = 0)
  ∧ simple_clean (str "Do you want me to continue?")
      = str "Do you want me to continue?" := by
  constructor
  · intro content
    rw [List.countP_eq_zero]
    intro l hl hbeq
    have hleq : l = str "Do you want me to continue?" := by simpa using hbeq
    subst hleq
    exact pdq_no_phrase content hl
  · decide

/-- C9 (counterexample): on the input `Q: q`, blank line, `A: a`,
`clean_db_final` drops the answer (it stops its forward search at the
blank line), while `process_db_qa_improved` skips the blank line and
associates the answer, contradicting the claim that both scripts search
past blank lines. -/
theorem C9_counterexample :
    clean_db_final_doc (str "Q: q\n\nA: a") = [str "1. Q: q"]
  ∧ process_db_qa_improved_doc (str "Q: q\n\nA: a")
      = [str "1. Q: q", str "A: a", []] := by
  refine ⟨by decide, by decide⟩

/-- C9 (amended): after emitting a question, `clean_db_final` scans
forward past non-empty lines that are neither answers nor questions and
stops at the first empty or `Q:` line (or the end of input), whereas
`process_db_qa_improved` scans past empty lines and stops at the first
non-empty non-answer line; both associate the first `A:` line reached
and, when the scan stops without an answer, resume processing at the
stopping line. -/
theorem C9_amended_thm :
    (∀ l ls, pyStrip l = [] → cdf_scan (l :: ls) = (none, l :: ls))
  ∧ (∀ l ls, pfxL (str "A:") (pyStrip l) = false → pfxL (str "Q:") (pyStrip l) = true →
      cdf_scan (l :: ls) = (none, l :: ls))
  ∧ (∀ l ls, pfxL (str "A:") (pyStrip l) = false → pfxL (str "Q:") (pyStrip l) = false →
      pyStrip l ≠ [] → cdf_scan (l :: ls) = cdf_scan ls)
  ∧ (∀ l ls, pfxL (str "A:") (pyStrip l) = true →
      cdf_scan (l :: ls) = (some (collapseWS (pyStrip ((pyStrip l).drop 2))), ls))
  ∧ (∀ l ls, pyStrip l = [] → imp_scan (l :: ls) = imp_scan ls)
  ∧ (∀ l ls, pfxL (str "A:") (pyStrip l) = false → pyStrip l ≠ [] →
      imp_scan (l :: ls) = (none, l :: ls))
  ∧ (∀ l ls, pfxL (str "A:") (pyStrip l) = true →
      imp_scan (l :: ls) = (some (collapseWS (pyStrip ((pyStrip l).drop 2))), ls)) := by
  refine ⟨?_, ?_, ?_, ?_, ?_, ?_, ?_⟩
  · intro l ls h
    simp only [cdf_scan]
    rw [h]
    simp [show pfxL (str "A:") ([] : List Char) = false from rfl]
  · intro l ls hA hQ
    simp only [cdf_scan]
    rw [if_neg (by simp [hA]), if_neg (by simp [hQ])]
  · intro l ls hA hQ hne
    simp only [cdf_scan]
    rw [if_neg (by simp [hA]), if_pos (by simp [hQ, hne])]
  · intro l ls hA
    simp only [cdf_scan]
    rw [if_pos hA]
  · intro l ls h
    simp only [imp_scan]
    rw [h]
    simp [show pfxL (str "A:") ([] : List Char) = false from rfl]
  · intro l ls hA hne
    simp only [imp_scan]
    rw [if_neg (by simp [hA]), if_neg (by simp [hne])]
  · intro l ls hA
    simp only [imp_scan]
    rw [if_pos hA]

/-- C9 (witness): the amended scan behaviour at concrete lines: a blank
line, a question line, a junk line and an answer line. -/
theorem C9_amended_witness :
    cdf_scan (str "" :: [str "A: a"]) = (none, str "" :: [str "A: a"])
  ∧ cdf_scan (str "Q: x" :: []) = (none, str "Q: x" :: [])
  ∧ cdf_scan (str "junk" :: [str "A: a"]) = cdf_scan [str "A: a"]
  ∧ cdf_scan (str "A: v w" :: [str "z"])
      = (some (collapseWS (pyStrip ((pyStrip (str "A: v w")).drop 2))), [str "z"])
  ∧ imp_scan (str "" :: [str "A: a"]) = imp_scan [str "A: a"]
  ∧ imp_scan (str "junk" :: [str "A: a"]) = (none, str "junk" :: [str "A: a"])
  ∧ imp_scan (str "A: v w" :: [str "z"])
      = (some (collapseWS (pyStrip ((pyStrip (str "A: v w")).drop 2))), [str "z"]) := by
  refine ⟨C9_amended_thm.1 _ _ (by decide),
    C9_amended_thm.2.1 _ _ (by decide) (by decide),
    C9_amended_thm.2.2.1 _ _ (by decide) (by decide) (by decide),
    C9_amended_thm.2.2.2.1 _ _ (by decide),
    C9_amended_thm.2.2.2.2.1 _ _ (by decide),
    C9_amended_thm.2.2.2.2.2.1 _ _ (by decide) (by decide),
    C9_amended_thm.2.2.2.2.2.2 _ _ (by decide)⟩

/-- C10: the reorder script's sort is stable: for every input and every
original number, the pairs carrying that number appear in the sorted
output in exactly the order in which they were parsed from the input
(pairs with empty extracted answers were already dropped before
sorting). -/
theorem C10_thm : ∀ (content : List Char) (n : Nat),
    (reorderSorted content).filter (fun p => p.orig == n)
      = (reorderPairs content).filter (fun p => p.orig == n) := by
  intro content n
  exact reorder_filter_stable content n
